import Mathlib

/-!
# Verification of the promplot command-line utility

This file gives a shallow embedding of the promplot repository
(`main.go`, `flags/unixtime.go`, `promplot/metrics.go`, `promplot/plot.go`,
`promplot/slack.go`) and proves or refutes the claims of its specification.

Strings are modelled as `List Char`, Go's `time.Duration` (int64 nanoseconds)
and `time.Time` instants as `Int`/`Nat` with the relevant overflow checks made
explicit, and fallible operations as `Option`/`Except`.  External effects
(the Prometheus HTTP API, the Slack API, the file system) are modelled by
explicit environment records of success/failure outcomes, and the code's
interaction with them by traces of events.
-/

/-! ## Basic character and string helpers -/

/-- ASCII decimal digit test, as used by Go's scanners (`'0' <= c && c <= '9'`,
a byte comparison, here on the code point). -/
def isDigitCh (c : Char) : Bool := decide (48 ≤ c.toNat) && decide (c.toNat ≤ 57)

/-- Numeric value of an ASCII digit character. -/
def dval (c : Char) : Nat := c.toNat - '0'.toNat

/-- ASCII digit character for a value below ten. -/
def digitCh (n : Nat) : Char := Char.ofNat ('0'.toNat + n)

/-- Value of a big-endian decimal digit string (Go's `atoi`/`leadingInt` value). -/
def digitsVal (l : List Char) : Nat := l.foldl (fun a c => a * 10 + dval c) 0

/-- Does `pat` occur at the head of `s`? -/
def startsWithL : List Char → List Char → Bool
  | _, [] => true
  | [], _ :: _ => false
  | a :: as, b :: bs => a = b && startsWithL as bs

/-- Does `pat` occur anywhere inside `s` (substring test)? -/
def containsSub : List Char → List Char → Bool
  | [], pat => pat.isEmpty
  | a :: as, pat => startsWithL (a :: as) pat || containsSub as pat

/-! ## `main.go`: the `fatal` helper (claim C4)

```go
func fatal(err error, msg string) {
    if err != nil {
        fmt.Fprintf(os.Stderr, "msg: %v\n", err)
        os.Exit(1)
    }
}
```

The format string is the literal `"msg: %v\n"`: only the error is
interpolated, the `msg` parameter is never used. -/

/-- The line `fatal` writes to standard error for a non-nil error.  Faithful to
the source: the constant format string `"msg: %v\n"` interpolates only the
error value; the `msg` argument does not appear in the output. -/
def fatalLine (err : List Char) (_msgArg : List Char) : List Char :=
  "msg: ".toList ++ err ++ ['\n']

/-- Behaviour of `fatal`: for a non-nil error, the printed stderr line and the
exit status 1; for a nil error, nothing happens. -/
def fatalBehavior (err : Option (List Char)) (msgArg : List Char) :
    Option (List Char × Nat) :=
  err.map (fun e => (fatalLine e msgArg, 1))

/-! ## `promplot/metrics.go`: the issued range query (claim C5)

```go
value, _, err := promAPI.QueryRange(context.Background(), query, v1.Range{
    Start: queryTime.Add(-duration),
    End:   queryTime,
    Step:  duration / step,
})
```

Times and durations are int64 nanoseconds; Go's `/` on them truncates
toward zero. -/

/-- A Prometheus range query as issued by `Metrics`. -/
structure PromRange where
  start : Int
  endT : Int
  step : Int
  deriving DecidableEq, Repr

/-- The range `Metrics` passes to `QueryRange`, from its arguments. -/
def metricsRange (queryTime duration step : Int) : PromRange :=
  { start := queryTime + (-duration), endT := queryTime, step := Int.tdiv duration step }

/-- Environment for one `Metrics` call: whether `api.NewClient` succeeds and
what the range query returns (`none` models a non-Matrix result shape). -/
structure PromEnv where
  clientOk : Bool
  queryResult : Except Unit (Option (List (List Char)))

/-- `Metrics`: the issued range query, if any.  When client creation fails no
query is issued; otherwise the query uses `metricsRange`. -/
def metricsIssued (queryTime duration step : Int) (env : PromEnv) : Option PromRange :=
  if env.clientOk then some (metricsRange queryTime duration step) else none

/-- `Metrics`' result: errors when the client cannot be created, the query
errors, or the result is not a matrix; otherwise the matrix. -/
def metricsResult (env : PromEnv) : Except Unit (List (List Char)) :=
  if env.clientOk then
    match env.queryResult with
    | .error _ => .error ()
    | .ok none => .error ()
    | .ok (some m) => .ok m
  else .error ()

/-! ## `promplot/slack.go` (claims C6, C7)

```go
func Slack(token, channel, title string, plot io.WriterTo) error {
    api := slack.New(token)
    if _, _, err := api.PostMessageContext(...); err != nil {
        return fmt.Errorf("failed to post message: %v", err)
    }
    f, err := ioutil.TempFile("", "promplot-")
    if err != nil { return fmt.Errorf("failed to create tmp file: %v", err) }
    defer func() { ...f.Close()...; ...os.Remove(f.Name())... }()
    if _, err = plot.WriteTo(f); err != nil {
        return fmt.Errorf("failed to write plot to file: %v", err)
    }
    if _, err = api.UploadFile(...); err != nil {
        return fmt.Errorf("failed to upload file: %v", err)
    }
    return nil
}
```

The trace records the effects in the order they are performed; the deferred
close/remove pair runs after the returned value of the function is
determined, before the function actually returns.  `f.Close()` and
`os.Remove` are modelled as succeeding (on their failure the Go code panics
instead of returning).  The Slack API offers a message-delete operation; the
event alphabet includes it to express that the code never invokes it. -/

inductive SlackEv where
  | post (channel : List Char)
  | tmpCreated
  | tmpWritten
  | upload (title : List Char)
  | tmpClosed
  | tmpRemoved
  | deleteMessage
  deriving DecidableEq, Repr

/-- Environment for one `Slack` call: outcomes of the message post, the
temp-file creation, the plot write, and the file upload. -/
structure SlackEnv where
  postOk : Bool
  tmpOk : Bool
  writeOk : Bool
  uploadOk : Bool
  deriving DecidableEq, Repr

/-- One run of `Slack`: the trace of performed effects, in order, and the
returned value (`.error ()` models a non-nil error). -/
def slackRun (env : SlackEnv) (channel title : List Char) :
    List SlackEv × Except Unit Unit :=
  if ¬ env.postOk then ([.post channel], .error ())
  else if ¬ env.tmpOk then ([.post channel], .error ())
  else if ¬ env.writeOk then
    ([.post channel, .tmpCreated, .tmpWritten, .tmpClosed, .tmpRemoved], .error ())
  else if ¬ env.uploadOk then
    ([.post channel, .tmpCreated, .tmpWritten, .upload title, .tmpClosed, .tmpRemoved],
      .error ())
  else
    ([.post channel, .tmpCreated, .tmpWritten, .upload title, .tmpClosed, .tmpRemoved],
      .ok ())

/-! ## Claim C4 (code_bug): `fatal` drops its contextual prefix -/

/-- C4: the spec says every pipeline failure is printed with a short
contextual prefix naming the failed stage.  The code's `fatal` ignores its
`msg` argument and prints the literal prefix `"msg: "` instead: for every
error and stage message, the printed line is `"msg: " ++ err ++ "\n"` and the
process exits 1.  In particular the file-write failure (`fatal(err, "failed
to copy to file")` with a raw OS error) produces a line that does not contain
its stage prefix; the upload-failure example of the spec still contains
"failed to upload" only because `Slack` wraps its own error before `fatal`
sees it. -/
theorem fatal_ignores_msg_argument :
    (∀ err msgArg : List Char,
      fatalBehavior (some err) msgArg = some ("msg: ".toList ++ err ++ ['\n'], 1)) ∧
    containsSub (fatalLine "write /dev/full: no space left on device".toList
        "failed to copy to file".toList) "failed to copy to file".toList = false ∧
    containsSub (fatalLine "failed to upload file: request failed".toList
        "failed to upload to Slack".toList) "failed to upload".toList = true := by
  refine ⟨fun err msgArg => rfl, by decide, by decide⟩

/-! ## Claim C5 (confirmed): the issued range query -/

/-- C5: every range query issued by `Metrics` with end time `t`, duration `d`
and sample count 100 has `Start = t - d`, `End = t` and `Step = d / 100`
(Go's truncating int64 division). -/
theorem metrics_issued_range (t d : Int) (env : PromEnv) (r : PromRange)
    (h : metricsIssued t d 100 env = some r) :
    r.start = t - d ∧ r.endT = t ∧ r.step = Int.tdiv d 100 := by
  unfold metricsIssued at h
  by_cases hc : env.clientOk
  · simp [hc] at h
    subst h
    refine ⟨by simp [metricsRange]; ring, rfl, rfl⟩
  · simp [hc] at h

/-- Witness for C5 at a concrete call. -/
theorem metrics_issued_range_witness :
    (metricsRange 1000 300 100).start = 1000 - 300 ∧
      (metricsRange 1000 300 100).endT = 1000 ∧
      (metricsRange 1000 300 100).step = Int.tdiv 300 100 :=
  metrics_issued_range 1000 300 ⟨true, .ok none⟩ (metricsRange 1000 300 100) rfl

/-! ## Claim C6 (corrected): post before upload, error conditions -/

/-- C6 counterexample: the claim says `Slack` returns an error iff the
message post or the file upload fails.  In the environment where the post
succeeds but temp-file creation fails, `Slack` returns an error although the
post succeeded and no upload was ever attempted (so the upload did not fail
either). -/
theorem slack_error_iff_counterexample :
    (slackRun ⟨true, false, true, true⟩ ['c'] ['t']).2 = .error () ∧
    (⟨true, false, true, true⟩ : SlackEnv).postOk = true ∧
    SlackEv.upload ['t'] ∉ (slackRun ⟨true, false, true, true⟩ ['c'] ['t']).1 := by
  refine ⟨rfl, rfl, by decide⟩

/-- C6 amended: `Slack` first posts the text message to the named channel
(the trace starts with the post), only afterwards uploads the image tagged
with the title (any upload event is preceded by a successful post), it
returns an error iff the message post, the temp-file creation, the plot
write, or the file upload fails, and it never deletes the posted message (in
particular the message is not retracted when the upload fails). -/
theorem slack_post_then_upload (env : SlackEnv) (channel title : List Char) :
    (slackRun env channel title).1.head? = some (.post channel) ∧
    (SlackEv.upload title ∈ (slackRun env channel title).1 →
      env.postOk = true ∧ env.tmpOk = true ∧ env.writeOk = true) ∧
    ((slackRun env channel title).2 = .error () ↔
      (env.postOk = false ∨ env.tmpOk = false ∨ env.writeOk = false ∨
        env.uploadOk = false)) ∧
    SlackEv.deleteMessage ∉ (slackRun env channel title).1 := by
  obtain ⟨p, tp, w, u⟩ := env
  cases p <;> cases tp <;> cases w <;> cases u <;>
    simp [slackRun]

/-- Witness for C6 at a concrete environment: upload failure still begins
with the post and returns an error. -/
theorem slack_post_then_upload_witness :
    (slackRun ⟨true, true, true, false⟩ ['c'] ['t']).1.head? =
      some (.post ['c']) ∧
    ((slackRun ⟨true, true, true, false⟩ ['c'] ['t']).2 = .error () ↔
      ((false : Bool) = false ∨ (true : Bool) = false ∨ (true : Bool) = false ∨
        (false : Bool) = false)) := by
  refine ⟨(slack_post_then_upload ⟨true, true, true, false⟩ ['c'] ['t']).1, ?_⟩
  have h := (slack_post_then_upload ⟨true, true, true, false⟩ ['c'] ['t']).2.2.1
  simpa using h

/-! ## Claim C7 (confirmed): the temp file never outlives the call -/

/-- C7: in every environment, if the temporary file was created then the
last effect of the call is its removal (so it is removed on the write-failure
path, the upload-failure path and the normal path alike, before the function
returns), and no removal happens without a creation. -/
theorem slack_tmpfile_removed (env : SlackEnv) (channel title : List Char) :
    (SlackEv.tmpCreated ∈ (slackRun env channel title).1 →
      (slackRun env channel title).1.getLast? = some .tmpRemoved) ∧
    (SlackEv.tmpRemoved ∈ (slackRun env channel title).1 →
      SlackEv.tmpCreated ∈ (slackRun env channel title).1) := by
  obtain ⟨p, tp, w, u⟩ := env
  cases p <;> cases tp <;> cases w <;> cases u <;>
    simp [slackRun]

/-- Witness for C7: on the upload-failure path the file was created and the
trace ends with its removal. -/
theorem slack_tmpfile_removed_witness :
    (slackRun ⟨true, true, true, false⟩ ['c'] ['t']).1.getLast? =
      some .tmpRemoved :=
  (slack_tmpfile_removed ⟨true, true, true, false⟩ ['c'] ['t']).1 (by decide)

/-! ## `main.go`: flag validation and the pipeline (claims C2, C10)

The model follows the current `main.go`: `-version` prints to standard output
and exits 0; the required-flag check

```go
if *promServer == "" || *query == "" || *duration == 0 ||
    (*file == "" && (*slackToken == "" || *channel == "")) ||
    !(*file == "" || *slackToken == "") {
    flag.Usage(); os.Exit(1)
}
```

aborts with usage text on standard error and exit 1 before anything else
runs; the `log` helper writes to standard error only when `-silent` is not
set; each pipeline stage either succeeds or `fatal` prints its line to
standard error and the process exits 1.  The trace records every write with
its stream; `OutData.image` stands for rendered image bytes (on a failing
`WriteTo` the bytes actually emitted are a prefix of them). -/

structure MainCfg where
  silent : Bool
  versionFlag : Bool
  url : List Char
  query : List Char
  rng : Int
  title : List Char
  file : List Char
  slackToken : List Char
  channel : List Char

/-- Data written to a stream: log/error text, or rendered image bytes. -/
inductive OutData where
  | text (s : List Char)
  | image
  deriving DecidableEq, Repr

inductive Chan where
  | stdout
  | stderr
  deriving DecidableEq, Repr

/-- External effects of the pipeline stages. -/
inductive MainEv where
  | fetch
  | render
  | writeOut
  | writeFile
  | slackUpload
  deriving DecidableEq, Repr

/-- The required-flag condition of `main.go` (the run proceeds iff it holds),
literally the negation of the line-73 disjunction. -/
def mainFlagsOk (c : MainCfg) : Bool :=
  !(decide (c.url = []) || decide (c.query = []) || decide (c.rng = 0) ||
    (decide (c.file = []) && (decide (c.slackToken = []) || decide (c.channel = []))) ||
    !(decide (c.file = []) || decide (c.slackToken = [])))

/-- The error list built by the later validation variant of `main.go`
(lines 196-217): the run proceeds iff this list is empty. -/
def mainFlagsErrs (c : MainCfg) : List (List Char) :=
  (if c.url = [] then ["missing flag: -url".toList] else []) ++
  (if c.query = [] then ["missing flag: -query".toList] else []) ++
  (if c.rng = 0 then ["missing flag: -range".toList] else []) ++
  (if c.file = [] ∧ c.slackToken = [] then
    ["one of -file or -slack must be set".toList]
  else if c.file ≠ [] ∧ c.slackToken ≠ [] then
    ["only one of -file or -slack can be set".toList]
  else if c.slackToken ≠ [] ∧ c.channel = [] then
    ["missing flag: -channel".toList]
  else [])

/-- Outcomes of the external calls made by one `main` run: `none` is
success, `some err` the error text returned by the call. -/
structure MainEnv where
  metricsErr : Option (List Char)
  plotErr : Option (List Char)
  createErr : Option (List Char)
  writeErr : Option (List Char)
  slackErr : Option (List Char)

/-- The `log` helper: a standard-error write unless `-silent` is set. -/
def logw (c : MainCfg) (s : List Char) : List (Chan × OutData) :=
  if c.silent then [] else [(Chan.stderr, OutData.text s)]

/-- One run of `main`: the stream writes in order, the external effects in
order, and the exit status. -/
def mainRun (c : MainCfg) (e : MainEnv) :
    List (Chan × OutData) × List MainEv × Nat :=
  if c.versionFlag then
    ([(Chan.stdout, OutData.text "promplot version".toList)], [], 0)
  else if mainFlagsOk c then
    let t1 := logw c ("Querying Prometheus ".toList ++ c.query)
    match e.metricsErr with
    | some err =>
        (t1 ++ [(Chan.stderr, OutData.text (fatalLine err "failed to get metrics".toList))],
          [MainEv.fetch], 1)
    | none =>
      let t2 := t1 ++ logw c ("Creating plot ".toList ++ c.title)
      match e.plotErr with
      | some err =>
          (t2 ++ [(Chan.stderr, OutData.text (fatalLine err "failed to create plot".toList))],
            [MainEv.fetch, MainEv.render], 1)
      | none =>
        if c.file ≠ [] then
          if c.file = ['-'] then
            let t3 := t2 ++ logw c "Writing to stdout".toList
            match e.writeErr with
            | some err =>
                (t3 ++ [(Chan.stdout, OutData.image)] ++
                    [(Chan.stderr, OutData.text (fatalLine err "failed to copy to file".toList))],
                  [MainEv.fetch, MainEv.render, MainEv.writeOut], 1)
            | none =>
                (t3 ++ [(Chan.stdout, OutData.image)] ++ logw c "Done".toList,
                  [MainEv.fetch, MainEv.render, MainEv.writeOut], 0)
          else
            let t3 := t2 ++ logw c ("Writing to ".toList ++ c.file)
            match e.createErr with
            | some err =>
                (t3 ++ [(Chan.stderr, OutData.text (fatalLine err "failed to create file".toList))],
                  [MainEv.fetch, MainEv.render], 1)
            | none =>
              match e.writeErr with
              | some err =>
                  (t3 ++ [(Chan.stderr, OutData.text (fatalLine err "failed to copy to file".toList))],
                    [MainEv.fetch, MainEv.render, MainEv.writeFile], 1)
              | none =>
                  (t3 ++ logw c "Done".toList,
                    [MainEv.fetch, MainEv.render, MainEv.writeFile], 0)
        else
          let t3 := t2 ++ logw c ("Uploading to Slack channel ".toList ++ c.channel)
          match e.slackErr with
          | some err =>
              (t3 ++ [(Chan.stderr, OutData.text (fatalLine err "failed to upload to Slack".toList))],
                [MainEv.fetch, MainEv.render, MainEv.slackUpload], 1)
          | none =>
              (t3 ++ logw c "Done".toList,
                [MainEv.fetch, MainEv.render, MainEv.slackUpload], 0)
  else
    ([(Chan.stderr, OutData.text "usage".toList)], [], 1)

/-- The output-target condition as the specification words it: exactly one of
{a non-empty file path, (a non-empty slack token AND a non-empty channel)}
is set. -/
def specExactlyOneTarget (c : MainCfg) : Prop :=
  (c.file ≠ [] ∧ ¬(c.slackToken ≠ [] ∧ c.channel ≠ [])) ∨
    (c.file = [] ∧ c.slackToken ≠ [] ∧ c.channel ≠ [])

/-! ## Claim C2 (corrected): output-target validation -/

/-- C2 counterexample: with `-url`, `-query`, a non-zero `-range`, a file
path, a slack token but no channel, exactly one member of {file path, (token
AND channel)} is set — the token-and-channel member is not set because the
channel is empty — yet validation fails: the process exits 1 without
fetching. -/
theorem main_validation_counterexample :
    specExactlyOneTarget
      ⟨false, false, ['u'], ['q'], 1, [], ['f'], ['t'], []⟩ ∧
    mainFlagsOk ⟨false, false, ['u'], ['q'], 1, [], ['f'], ['t'], []⟩ = false ∧
    (mainRun ⟨false, false, ['u'], ['q'], 1, [], ['f'], ['t'], []⟩
        ⟨none, none, none, none, none⟩).2.2 = 1 ∧
    MainEv.fetch ∉
      (mainRun ⟨false, false, ['u'], ['q'], 1, [], ['f'], ['t'], []⟩
        ⟨none, none, none, none, none⟩).2.1 := by
  refine ⟨Or.inl ⟨by decide, by decide⟩, by decide, by decide, by decide⟩

/-- C2 amended: given non-empty `-url` and `-query` and a non-zero `-range`,
validation succeeds iff either the file path is set and the slack token is
not, or the file path is empty and both the token and the channel are set
(so a set file path together with a set token is rejected even when the
channel is empty); the later error-list validation variant agrees; when
validation fails the process exits 1 without performing any external call,
and when it succeeds the fetch is performed. -/
theorem main_validation_iff (c : MainCfg) (e : MainEnv)
    (hv : c.versionFlag = false)
    (hu : c.url ≠ []) (hq : c.query ≠ []) (hr : c.rng ≠ 0) :
    (mainFlagsOk c = true ↔
      ((c.file ≠ [] ∧ c.slackToken = []) ∨
        (c.file = [] ∧ c.slackToken ≠ [] ∧ c.channel ≠ []))) ∧
    (mainFlagsErrs c = [] ↔ mainFlagsOk c = true) ∧
    (mainFlagsOk c = false →
      (mainRun c e).2.1 = [] ∧ (mainRun c e).2.2 = 1) ∧
    (mainFlagsOk c = true → MainEv.fetch ∈ (mainRun c e).2.1) := by
  obtain ⟨sil, vf, url, q, rng, ttl, fl, tok, ch⟩ := c
  simp only at hv hu hq hr
  subst hv
  refine ⟨?_, ?_, ?_, ?_⟩
  · simp [mainFlagsOk, hu, hq, hr]
    by_cases hf : fl = [] <;> by_cases ht : tok = [] <;>
      by_cases hc : ch = [] <;> simp [hf, ht, hc]
  · simp [mainFlagsOk, mainFlagsErrs, hu, hq, hr]
    by_cases hf : fl = [] <;> by_cases ht : tok = [] <;>
      by_cases hc : ch = [] <;> simp [hf, ht, hc]
  · intro hbad
    simp only [mainRun, Bool.false_eq_true, if_false, hbad]
    simp
  · intro hok
    simp only [mainRun, Bool.false_eq_true, if_false, hok, if_true]
    rcases e.metricsErr with _ | err <;> rcases e.plotErr with _ | err2 <;>
      by_cases hf : fl ≠ [] <;> by_cases hd : fl = ['-'] <;>
        rcases e.writeErr with _ | err3 <;> rcases e.createErr with _ | err4 <;>
          rcases e.slackErr with _ | err5 <;> simp_all

/-- Witness for C2 at a concrete valid configuration (file mode). -/
theorem main_validation_iff_witness :
    (mainFlagsOk ⟨false, false, ['u'], ['q'], 1, [], ['f'], [], []⟩ = true ↔
      (((['f'] : List Char) ≠ [] ∧ ([] : List Char) = []) ∨
        ((['f'] : List Char) = [] ∧ ([] : List Char) ≠ [] ∧ ([] : List Char) ≠ []))) ∧
    MainEv.fetch ∈
      (mainRun ⟨false, false, ['u'], ['q'], 1, [], ['f'], [], []⟩
        ⟨none, none, none, none, none⟩).2.1 := by
  have h := main_validation_iff ⟨false, false, ['u'], ['q'], 1, [], ['f'], [], []⟩
    ⟨none, none, none, none, none⟩ rfl (by decide) (by decide) (by decide)
  exact ⟨h.1, h.2.2.2 (by decide)⟩

/-! ## Claim C10 (confirmed): stdout carries only image bytes -/

/-- C10: with `-version` unset and `-file -`, every write to standard output
carries image bytes (all progress logging and error output goes to standard
error, whether or not `-silent` is set), and on a successful run standard
output receives exactly one image write. -/
theorem main_stdout_only_image (c : MainCfg) (e : MainEnv)
    (hv : c.versionFlag = false) (hf : c.file = ['-']) :
    (∀ w ∈ (mainRun c e).1, w.1 = Chan.stdout → w.2 = OutData.image) ∧
    ((mainRun c e).2.2 = 0 →
      (mainRun c e).1.filter (fun w => decide (w.1 = Chan.stdout)) =
        [(Chan.stdout, OutData.image)]) := by
  obtain ⟨sil, vf, url, q, rng, ttl, fl, tok, ch⟩ := c
  obtain ⟨me, pe, ce, we, se⟩ := e
  simp only at hv hf
  subst hv hf
  unfold mainRun
  by_cases hok : mainFlagsOk ⟨sil, false, url, q, rng, ttl, ['-'], tok, ch⟩ <;>
    cases sil <;> rcases me with _ | e1 <;> rcases pe with _ | e2 <;>
      rcases we with _ | e3 <;>
        simp_all [logw]

/-- Witness for C10 on a successful silent run writing to stdout. -/
theorem main_stdout_only_image_witness :
    (mainRun ⟨true, false, ['u'], ['q'], 1, [], ['-'], [], []⟩
        ⟨none, none, none, none, none⟩).1.filter
        (fun w => decide (w.1 = Chan.stdout)) =
      [(Chan.stdout, OutData.image)] :=
  (main_stdout_only_image ⟨true, false, ['u'], ['q'], 1, [], ['-'], [], []⟩
    ⟨none, none, none, none, none⟩ rfl rfl).2 (by decide)

/-! ## `promplot/plot.go` (current version, claim C3): legend labels

```go
var labelText = regexp.MustCompile("\\{(.*)\\}")
...
if len(metrics) > 1 {
    m := labelText.FindStringSubmatch(sample.Metric.String())
    if m != nil {
        p.Legend.Add(m[1], l)
    }
}
```

Go's RE2 matching is leftmost-first and `.*` is greedy and does not match a
newline, so the submatch runs from the first `{` that is followed by some
`}` on the same line up to the *last* such `}`. -/

/-- The longest proper prefix of `l` before its last `'}'`, if any: what the
greedy `(.*)` captures once a match has started. -/
def lastBrace : List Char → Option (List Char)
  | [] => none
  | c :: rest =>
    match lastBrace rest with
    | some g => some (c :: g)
    | none => if c = '}' then some [] else none

/-- `labelText.FindStringSubmatch(s)[1]`: leftmost-first match of
`\{(.*)\}`, `none` when the regexp does not match. -/
def labelTextSub : List Char → Option (List Char)
  | [] => none
  | c :: rest =>
    if c = '{' then
      match lastBrace (rest.takeWhile (fun ch => decide (ch ≠ '\n'))) with
      | some g => some g
      | none => labelTextSub rest
    else labelTextSub rest

/-- The legend entries `Plot` adds, in series order: one per series whose
metric-name string matches the regexp, and none at all when there is at most
one series. -/
def plotLegendEntries (names : List (List Char)) : List (List Char) :=
  if 1 < names.length then names.filterMap labelTextSub else []

/-- The label the specification describes: the substring between the first
pair of curly braces, i.e. from the first `'{'` to the first `'}'` after it. -/
def specFirstPairLabel : List Char → Option (List Char)
  | [] => none
  | c :: rest =>
    if c = '{' then
      if '}' ∈ rest then some (rest.takeWhile (fun ch => decide (ch ≠ '}')))
      else none
    else specFirstPairLabel rest

theorem takeWhile_append_all {p : Char → Bool} (xs ys : List Char)
    (h : ∀ x ∈ xs, p x = true) :
    List.takeWhile p (xs ++ ys) = xs ++ List.takeWhile p ys := by
  induction xs with
  | nil => rfl
  | cons a as ih =>
    have ha : p a = true := h a (by simp)
    simp only [List.cons_append, List.takeWhile_cons, ha, if_true]
    rw [ih (fun x hx => h x (by simp [hx]))]

theorem mem_of_mem_takeWhile {p : Char → Bool} {x : Char} {l : List Char}
    (h : x ∈ List.takeWhile p l) : x ∈ l := by
  induction l with
  | nil => simp at h
  | cons a as ih =>
    by_cases hp : p a
    · simp only [List.takeWhile_cons, hp, if_true, List.mem_cons] at h
      rcases h with h | h
      · simp [h]
      · exact List.mem_cons_of_mem _ (ih h)
    · simp only [List.takeWhile_cons, hp] at h
      simp at h

theorem lastBrace_of_no_brace {l : List Char} (h : '}' ∉ l) :
    lastBrace l = none := by
  induction l with
  | nil => rfl
  | cons a as ih =>
    have ha : a ≠ '}' := fun hc => h (by simp [hc])
    have has : '}' ∉ as := fun hc => h (List.mem_cons_of_mem _ hc)
    simp [lastBrace, ih has, ha]

theorem lastBrace_closes (m t : List Char) (ht : '}' ∉ t) :
    lastBrace (m ++ '}' :: t) = some m := by
  induction m with
  | nil => simp [lastBrace, lastBrace_of_no_brace ht]
  | cons a as ih => simp [lastBrace, ih]

theorem labelTextSub_skip (p l : List Char) (hp : '{' ∉ p) :
    labelTextSub (p ++ l) = labelTextSub l := by
  induction p with
  | nil => rfl
  | cons a as ih =>
    have ha : a ≠ '{' := fun hc => hp (by simp [hc])
    have has : '{' ∉ as := fun hc => hp (List.mem_cons_of_mem _ hc)
    simp [labelTextSub, ha, ih has]

/-! ## Claim C3 (corrected): legend label extraction -/

/-- C3 counterexample: for the metric-name string `x{a}b}` (in a collection
of two series) the code's legend entry is `a}b` — the greedy `(.*)` runs to
the last `}` — whereas the substring between the first pair of curly braces
is `a`. -/
theorem legend_label_counterexample :
    plotLegendEntries [['x', '{', 'a', '}', 'b', '}'], ['y', '{', 'c', '}']] =
      [['a', '}', 'b'], ['c']] ∧
    List.filterMap specFirstPairLabel
        [['x', '{', 'a', '}', 'b', '}'], ['y', '{', 'c', '}']] =
      [['a'], ['c']] ∧
    (['a', '}', 'b'] : List Char) ≠ ['a'] := by
  refine ⟨by decide, by decide, by decide⟩

/-- C3 amended: with more than one series, each series contributes the
substring of its metric-name string between the first `'{'` that is followed
by a `'}'` on the same line and the *last* such `'}'` (greedy match); a
series whose name contains no `'{'` contributes no entry; with at most one
series no legend entries are added; the entries are these labels in series
order. -/
theorem legend_label_greedy :
    (∀ p m s : List Char, '{' ∉ p → '}' ∉ s → '\n' ∉ m →
      labelTextSub (p ++ '{' :: (m ++ '}' :: s)) = some m) ∧
    (∀ nm : List Char, '{' ∉ nm → labelTextSub nm = none) ∧
    (∀ names : List (List Char), names.length ≤ 1 → plotLegendEntries names = []) ∧
    (∀ names : List (List Char), 1 < names.length →
      plotLegendEntries names = names.filterMap labelTextSub) := by
  refine ⟨?_, ?_, ?_, ?_⟩
  · intro p m s hp hs hm
    rw [labelTextSub_skip p _ hp]
    have hseg : List.takeWhile (fun ch => decide (ch ≠ '\n')) (m ++ '}' :: s) =
        (m ++ ['}']) ++ List.takeWhile (fun ch => decide (ch ≠ '\n')) s := by
      have := takeWhile_append_all (p := fun ch => decide (ch ≠ '\n'))
        (m ++ ['}']) s ?_
      · simpa using this
      · intro x hx
        simp only [List.mem_append, List.mem_singleton] at hx
        rcases hx with hx | hx
        · have hxne : x ≠ '\n' := fun hcEq => hm (hcEq ▸ hx)
          simp [hxne]
        · subst hx; decide
    have hnot : '}' ∉ List.takeWhile (fun ch => decide (ch ≠ '\n')) s :=
      fun hc => hs (mem_of_mem_takeWhile hc)
    simp only [labelTextSub]
    rw [hseg, List.append_assoc, List.singleton_append,
      lastBrace_closes m _ hnot]
    simp
  · intro nm hnm
    have := labelTextSub_skip nm [] hnm
    simpa using this
  · intro names h
    unfold plotLegendEntries
    have : ¬ 1 < names.length := by omega
    simp [this]
  · intro names h
    unfold plotLegendEntries
    simp [h]

/-- Witness for C3 at concrete inputs. -/
theorem legend_label_greedy_witness :
    labelTextSub (['x'] ++ '{' :: (['a'] ++ '}' :: [])) = some ['a'] ∧
    labelTextSub ['n', 'o', 'n', 'e'] = none ∧
    plotLegendEntries [['m', '{', 'a', '}']] = [] := by
  refine ⟨legend_label_greedy.1 ['x'] ['a'] [] (by decide) (by decide) (by decide),
    legend_label_greedy.2.1 ['n', 'o', 'n', 'e'] (by decide),
    legend_label_greedy.2.2.1 [['m', '{', 'a', '}']] (by decide)⟩

/-! ## `flags/unixtime.go` (second part): the duration flag (claims C1, C9)

```go
var matchDay = regexp.MustCompile("[-+]?[0-9]*(\\.[0-9]*)?d")

func (d *durationValue) Set(s string) error {
    if is := matchDay.FindStringIndex(s); is != nil {
        days, err := strconv.ParseFloat(s[is[0]:is[1]-1], 64)
        if err != nil {
            return err
        }
        s = s[:is[0]] + s[is[1]:] + strconv.FormatFloat(days*24, 'f', 6, 64) + "h"
    }
    v, err := time.ParseDuration(s)
    *d = durationValue(v)
    return err
}
```

`time.ParseDuration` is modelled faithfully after the Go runtime: a single
optional leading sign, the special case `"0"`, then a sequence of
`digits[.digits]unit` components summed as int64 nanoseconds with the
runtime's overflow checks (made explicit against `2^63 - 1`); all error
kinds collapse to `.error ()`.  The only deliberate abstraction is the
fractional part: Go computes `int64(float64(f) * (float64(unit) / scale))`;
this is modelled as the integer `f * unit / scale`, which coincides with the
float64 computation whenever `scale` divides `f * unit` and the quotient is
below `2^53` — in particular for every component with at most six fractional
digits and a unit of `s`, `m` or `h`, the only components reachable in the
theorems below. -/

/-- `2^63 - 1`, the largest int64. -/
def maxInt64 : Nat := 9223372036854775807

/-- Go's `unitMap` of `time.ParseDuration`: nanoseconds per unit name. -/
def unitNs (u : List Char) : Option Nat :=
  if u = ['n', 's'] then some 1
  else if u = ['u', 's'] then some 1000
  else if u = ['µ', 's'] then some 1000
  else if u = ['μ', 's'] then some 1000
  else if u = ['m', 's'] then some 1000000
  else if u = ['s'] then some 1000000000
  else if u = ['m'] then some 60000000000
  else if u = ['h'] then some 3600000000000
  else none

/-- One syntactic component of a Go duration literal: integer digits,
fractional digits (empty when there is no dot or no digit after it), and the
unit name. -/
structure DTok where
  ip : List Char
  fp : List Char
  u : List Char
  deriving DecidableEq, Repr

/-- Splits a duration literal (sign already removed) into components.  One
component is consumed per step, so `s.length + 1` fuel always suffices.
Returns `none` where Go's `ParseDuration` reports a syntax error: a
component with no digits at all, or with a missing unit name. -/
def durTokenize : Nat → List Char → Option (List DTok)
  | 0, _ => none
  | fuel + 1, s =>
    if s = [] then some []
    else
      let ip := s.takeWhile isDigitCh
      let s1 := s.dropWhile isDigitCh
      let dotB := decide (s1.head? = some '.')
      let fp := if dotB then s1.tail.takeWhile isDigitCh else []
      let s2 := if dotB then s1.tail.dropWhile isDigitCh else s1
      if ip = [] ∧ fp = [] then none
      else
        let u := s2.takeWhile (fun c => !isDigitCh c && decide (c ≠ '.'))
        let s3 := s2.dropWhile (fun c => !isDigitCh c && decide (c ≠ '.'))
        if u = [] then none
        else (durTokenize fuel s3).map (fun ts => ⟨ip, fp, u⟩ :: ts)

/-- One step of Go's `leadingFraction` scan: state is (value, scale,
overflowed); once the value would overflow, further digits are ignored but
still consumed. -/
def fracStep (st : Nat × Nat × Bool) (c : Char) : Nat × Nat × Bool :=
  if st.2.2 then (st.1, st.2.1, true)
  else if st.1 > 922337203685477580 then (st.1, st.2.1, true)
  else
    let y := st.1 * 10 + dval c
    if y > 9223372036854775808 then (st.1, st.2.1, true)
    else (y, st.2.1 * 10, false)

/-- Value and scale of the fractional digit string, per `leadingFraction`. -/
def fracVal (fp : List Char) : Nat × Nat :=
  ((fp.foldl fracStep (0, 1, false)).1, (fp.foldl fracStep (0, 1, false)).2.1)

/-- Sums the components as int64 nanoseconds with Go's overflow checks:
`leadingInt` overflow, the pre-multiplication check `v > (1<<63-1)/unit`,
the post-fraction check and the accumulation check. -/
def evalDToks : List DTok → Nat → Except Unit Nat
  | [], acc => .ok acc
  | t :: ts, acc =>
    let v := digitsVal t.ip
    if v > maxInt64 then .error ()
    else
      match unitNs t.u with
      | none => .error ()
      | some unit =>
        if v > maxInt64 / unit then .error ()
        else
          let fs := fracVal t.fp
          let v2 := v * unit + fs.1 * unit / fs.2
          if v2 > maxInt64 then .error ()
          else if acc + v2 > maxInt64 then .error ()
          else evalDToks ts (acc + v2)

/-- Go's `time.ParseDuration` on the model above. -/
def parseGoDuration (s : List Char) : Except Unit Int :=
  let neg := decide (s.head? = some '-')
  let s1 := if s.head? = some '-' ∨ s.head? = some '+' then s.tail else s
  if s1 = ['0'] then .ok 0
  else if s1 = [] then .error ()
  else
    match durTokenize (s1.length + 1) s1 with
    | none => .error ()
    | some toks =>
      match evalDToks toks 0 with
      | .error _ => .error ()
      | .ok d => .ok (if neg then -(d : Int) else (d : Int))

/-- Attempt of the day regexp `[-+]?[0-9]*(\.[0-9]*)?d` at the start of `s`:
the match length if it matches here.  RE2 prefers the sign present and the
digit runs maximal; a backtracked (shorter) digit run is followed by a digit,
which fits neither `\.`, nor `d`, so only the maximal runs can succeed and
the scan below is exact. -/
def matchDayAt (s : List Char) : Option Nat :=
  let sl := if s.head? = some '-' ∨ s.head? = some '+' then 1 else 0
  let s0 := s.drop sl
  let ds := s0.takeWhile isDigitCh
  let r1 := s0.dropWhile isDigitCh
  if r1.head? = some '.' then
    let fs := r1.tail.takeWhile isDigitCh
    if (r1.tail.dropWhile isDigitCh).head? = some 'd' then
      some (sl + ds.length + 1 + fs.length + 1)
    else none
  else if r1.head? = some 'd' then some (sl + ds.length + 1)
  else none

/-- Leftmost search, tracking the absolute position. -/
def findDayAux : List Char → Nat → Option (Nat × Nat)
  | [], _ => none
  | c :: rest, i =>
    match matchDayAt (c :: rest) with
    | some len => some (i, i + len)
    | none => findDayAux rest (i + 1)

/-- `matchDay.FindStringIndex(s)`: start and end of the leftmost match. -/
def findDay (s : List Char) : Option (Nat × Nat) := findDayAux s 0

/-- Go's `strconv.ParseFloat` on the strings the day regexp can capture
(an optional sign, digits, at most one dot): the exact rational value.
Errors when there is no digit at all, as `ParseFloat` does. -/
def parseFloatQ (s : List Char) : Option ℚ :=
  let sgn : ℚ := if s.head? = some '-' then -1 else 1
  let s0 := if s.head? = some '-' ∨ s.head? = some '+' then s.tail else s
  let ip := s0.takeWhile isDigitCh
  let r1 := s0.dropWhile isDigitCh
  if r1 = [] then
    if ip = [] then none else some (sgn * (digitsVal ip : ℚ))
  else if r1.head? = some '.' then
    let fp := r1.tail.takeWhile isDigitCh
    if r1.tail.dropWhile isDigitCh ≠ [] then none
    else if ip = [] ∧ fp = [] then none
    else
      some (sgn * ((digitsVal ip * 10 ^ fp.length + digitsVal fp : ℚ) / 10 ^ fp.length))
  else none

/-- Little-endian decimal digits; `n + 1` fuel always suffices. -/
def natDigitsAux : Nat → Nat → List Char
  | 0, _ => []
  | fuel + 1, n =>
    if n < 10 then [digitCh n] else digitCh (n % 10) :: natDigitsAux fuel (n / 10)

/-- Big-endian decimal digit string of `n` (no leading zeros, `"0"` for 0). -/
def natDigits (n : Nat) : List Char := (natDigitsAux (n + 1) n).reverse

/-- Decimal digit string of `n` left-padded with `'0'` to width `w`. -/
def natDigitsPad (w n : Nat) : List Char :=
  List.replicate (w - (natDigits n).length) '0' ++ natDigits n

/-- `strconv.FormatFloat(x, 'f', 6, 64)` on the exact rational: the decimal
rendering with exactly six fractional digits.  On every value reachable in
the theorems below `x * 10^6` is an integer whose magnitude is far below
`2^53 / 1`, where the float64 detour of the Go code is exact, so no rounding
occurs and the model coincides with the code. -/
def formatFloat6 (q : ℚ) : List Char :=
  let n : Int := round (q * 1000000)
  let m := n.natAbs
  (if n < 0 then ['-'] else []) ++
    natDigits (m / 1000000) ++ '.' :: natDigitsPad 6 (m % 1000000)

/-- `durationValue.Set`: returns the error outcome and the value stored in
the flag afterwards, given the previously stored value.  Faithful to the
source: on a `ParseFloat` failure the function returns before assigning, so
the stored value keeps `prev`; on a `ParseDuration` failure the zero result
of `ParseDuration` is assigned before the error is returned. -/
def durationValueSetPair (prev : Int) (s : List Char) : Except Unit Unit × Int :=
  match findDay s with
  | some ij =>
    (match parseFloatQ ((s.take (ij.2 - 1)).drop ij.1) with
     | none => (.error (), prev)
     | some days =>
       match parseGoDuration
           (s.take ij.1 ++ s.drop ij.2 ++ formatFloat6 (days * 24) ++ ['h']) with
       | .ok v => (.ok (), v)
       | .error _ => (.error (), 0))
  | none =>
    match parseGoDuration s with
    | .ok v => (.ok (), v)
    | .error _ => (.error (), 0)


/-! ## Duration components: the value a well-formed literal denotes -/

/-- A unit component of a duration literal: integer digits, an optional dot
with fractional digits, and a unit letter. -/
structure DurComp where
  ip : List Char
  dot : Bool
  fp : List Char
  u : Char
  deriving DecidableEq, Repr

/-- The text of a component. -/
def DurComp.render (c : DurComp) : List Char :=
  c.ip ++ (if c.dot then '.' :: c.fp else []) ++ [c.u]

/-- The text of a component list. -/
def renderComps (l : List DurComp) : List Char := (l.map DurComp.render).flatten

/-- Well-formedness of a component: digit strings, at least one digit, no
fractional digits without a dot, a dot whenever the integer part is empty,
at most six fractional digits, and one of the four unit letters. -/
def compOK (c : DurComp) : Bool :=
  c.ip.all isDigitCh && c.fp.all isDigitCh &&
    (decide (c.ip ≠ []) || decide (c.fp ≠ [])) &&
    (c.dot || decide (c.fp = [])) &&
    (decide (c.ip ≠ []) || c.dot) &&
    decide (c.fp.length ≤ 6) &&
    (decide (c.u = 'h') || decide (c.u = 'm') || decide (c.u = 's') ||
      decide (c.u = 'd'))

/-- Nanoseconds per unit letter (`d` is the extension of `durationValue`). -/
def unitOfChar (c : Char) : Nat :=
  if c = 'h' then 3600000000000
  else if c = 'm' then 60000000000
  else if c = 's' then 1000000000
  else if c = 'd' then 86400000000000
  else 0

/-- The contribution of one component in nanoseconds: its decimal value
times its unit.  The division is exact for every well-formed component. -/
def compVal (c : DurComp) : Nat :=
  (digitsVal c.ip * 10 ^ c.fp.length + digitsVal c.fp) * unitOfChar c.u /
    10 ^ c.fp.length

/-! ### Digit-string arithmetic -/

theorem dropWhile_append_all {p : Char → Bool} (xs ys : List Char)
    (h : ∀ x ∈ xs, p x = true) :
    List.dropWhile p (xs ++ ys) = List.dropWhile p ys := by
  induction xs with
  | nil => rfl
  | cons a as ih =>
    have ha : p a = true := h a (by simp)
    simp only [List.cons_append, List.dropWhile_cons, ha, if_true]
    exact ih (fun x hx => h x (by simp [hx]))

theorem digitsVal_from (l : List Char) (x : Nat) :
    List.foldl (fun a c => a * 10 + dval c) x l = x * 10 ^ l.length + digitsVal l := by
  induction l generalizing x with
  | nil => simp [digitsVal]
  | cons c r ih =>
    simp only [List.foldl_cons, List.length_cons, digitsVal]
    rw [ih (x * 10 + dval c), ih (0 * 10 + dval c)]
    ring

theorem digitsVal_append (xs ys : List Char) :
    digitsVal (xs ++ ys) = digitsVal xs * 10 ^ ys.length + digitsVal ys := by
  unfold digitsVal
  rw [List.foldl_append, digitsVal_from]
  rfl

theorem digitsVal_cons_zero (t : List Char) :
    digitsVal ('0' :: t) = digitsVal t := by
  unfold digitsVal
  simp [dval]

theorem ne_of_digit {c x : Char} (hc : isDigitCh c = true)
    (hx : isDigitCh x = false) : c ≠ x := by
  intro he
  rw [he, hx] at hc
  exact Bool.false_ne_true hc

theorem dval_digitCh {d : Nat} (h : d < 10) : dval (digitCh d) = d := by
  interval_cases d <;> decide

theorem isDigitCh_digitCh {d : Nat} (h : d < 10) : isDigitCh (digitCh d) = true := by
  interval_cases d <;> decide

theorem natDigitsAux_spec (fuel : Nat) :
    ∀ n, n < 10 ^ fuel →
      digitsVal (natDigitsAux fuel n).reverse = n ∧
      (∀ c ∈ natDigitsAux fuel n, isDigitCh c = true) ∧
      (0 < fuel → natDigitsAux fuel n ≠ []) := by
  induction fuel with
  | zero =>
    intro n hn
    interval_cases n
    refine ⟨by decide, by simp [natDigitsAux], by simp⟩
  | succ f ih =>
    intro n hn
    by_cases h10 : n < 10
    · refine ⟨?_, ?_, ?_⟩
      · simp [natDigitsAux, h10, digitsVal, dval_digitCh h10]
      · intro c hc
        simp [natDigitsAux, h10] at hc
        rw [hc]
        exact isDigitCh_digitCh h10
      · intro _
        simp [natDigitsAux, h10]
    · have hdiv : n / 10 < 10 ^ f := by
        rw [Nat.div_lt_iff_lt_mul (by norm_num)]
        calc n < 10 ^ (f + 1) := hn
        _ = 10 ^ f * 10 := by ring
      obtain ⟨hv, hd, _⟩ := ih (n / 10) hdiv
      refine ⟨?_, ?_, ?_⟩
      · simp only [natDigitsAux, h10, if_false, List.reverse_cons]
        rw [digitsVal_append, hv]
        simp [digitsVal, dval_digitCh (Nat.mod_lt n (by norm_num))]
        omega
      · intro c hc
        simp only [natDigitsAux, h10, if_false, List.mem_cons] at hc
        rcases hc with hc | hc
        · rw [hc]; exact isDigitCh_digitCh (Nat.mod_lt n (by norm_num))
        · exact hd c hc
      · intro _
        simp [natDigitsAux, h10]

theorem lt_ten_pow_succ (n : Nat) : n < 10 ^ (n + 1) := by
  calc n < 2 ^ n := Nat.lt_two_pow n
  _ ≤ 10 ^ n := Nat.pow_le_pow_left (by norm_num) n
  _ ≤ 10 ^ (n + 1) := Nat.pow_le_pow_right (by norm_num) (Nat.le_succ n)

theorem natDigits_val (n : Nat) : digitsVal (natDigits n) = n :=
  (natDigitsAux_spec (n + 1) n (lt_ten_pow_succ n)).1

theorem natDigits_digits (n : Nat) : ∀ c ∈ natDigits n, isDigitCh c = true := by
  intro c hc
  exact (natDigitsAux_spec (n + 1) n (lt_ten_pow_succ n)).2.1 c
    (by simpa [natDigits] using hc)

theorem natDigits_ne_nil (n : Nat) : natDigits n ≠ [] := by
  have := (natDigitsAux_spec (n + 1) n (lt_ten_pow_succ n)).2.2 (Nat.succ_pos n)
  simpa [natDigits] using this

theorem dval_lt_of_digit {c : Char} (h : isDigitCh c = true) : dval c < 10 := by
  simp only [isDigitCh, Bool.and_eq_true, decide_eq_true_eq] at h
  have h0 : '0'.toNat = 48 := rfl
  unfold dval
  omega

theorem natDigitsAux_len (fuel : Nat) :
    ∀ n k, 0 < k → n < 10 ^ k → (natDigitsAux fuel n).length ≤ k := by
  induction fuel with
  | zero => intro n k hk _; simp [natDigitsAux]
  | succ f ih =>
    intro n k hk hn
    by_cases h10 : n < 10
    · simpa [natDigitsAux, h10] using hk
    · obtain ⟨k', rfl⟩ : ∃ k', k = k' + 1 := ⟨k - 1, by omega⟩
      have hk' : 0 < k' := by
        by_contra hc
        have : k' = 0 := by omega
        subst this
        simp at hn
        omega
      have hdiv : n / 10 < 10 ^ k' := by
        rw [Nat.div_lt_iff_lt_mul (by norm_num)]
        calc n < 10 ^ (k' + 1) := hn
        _ = 10 ^ k' * 10 := by ring
      have := ih (n / 10) k' hk' hdiv
      simp only [natDigitsAux, h10, if_false, List.length_cons]
      omega

theorem natDigits_len {n k : Nat} (hk : 0 < k) (h : n < 10 ^ k) :
    (natDigits n).length ≤ k := by
  unfold natDigits
  rw [List.length_reverse]
  exact natDigitsAux_len (n + 1) n k hk h

theorem digitsVal_replicate_zero (k : Nat) (t : List Char) :
    digitsVal (List.replicate k '0' ++ t) = digitsVal t := by
  induction k with
  | zero => rfl
  | succ m ih => simpa [List.replicate_succ, digitsVal_cons_zero] using ih

theorem natDigitsPad_val (w n : Nat) : digitsVal (natDigitsPad w n) = n := by
  unfold natDigitsPad
  rw [digitsVal_replicate_zero, natDigits_val]

theorem natDigitsPad_len {n : Nat} (h : n < 10 ^ 6) :
    (natDigitsPad 6 n).length = 6 := by
  unfold natDigitsPad
  have := natDigits_len (by norm_num) h
  simp [List.length_replicate]
  omega

theorem natDigitsPad_digits (w n : Nat) :
    ∀ c ∈ natDigitsPad w n, isDigitCh c = true := by
  intro c hc
  unfold natDigitsPad at hc
  rcases List.mem_append.1 hc with hc | hc
  · rw [List.eq_of_mem_replicate hc]; decide
  · exact natDigits_digits n c hc

/-! ### Exactness of the fractional-part scan -/

theorem fracFold (l : List Char) :
    ∀ x sc k, (∀ c ∈ l, isDigitCh c = true) → x < 10 ^ k → k + l.length ≤ 6 →
      List.foldl fracStep (x, sc, false) l =
        (x * 10 ^ l.length + digitsVal l, sc * 10 ^ l.length, false) := by
  induction l with
  | nil => intro x sc k _ _ _; simp [digitsVal]
  | cons c r ih =>
    intro x sc k hd hx hk
    have hc : isDigitCh c = true := hd c (by simp)
    have hxb : x < 100000 := by
      have hp : (10 : Nat) ^ k ≤ 10 ^ 5 :=
        Nat.pow_le_pow_right (by norm_num) (by simp at hk; omega)
      have h5 : (10 : Nat) ^ 5 = 100000 := by norm_num
      omega
    have hyb : x * 10 + dval c ≤ 9223372036854775808 := by
      have hdv := dval_lt_of_digit hc
      omega
    have hstep : fracStep (x, sc, false) c = (x * 10 + dval c, sc * 10, false) := by
      have h1 : ¬ (x > 922337203685477580) := by omega
      have h2 : ¬ (x * 10 + dval c > 9223372036854775808) := by omega
      unfold fracStep
      simp [h1, h2]
    rw [List.foldl_cons, hstep]
    have hx' : x * 10 + dval c < 10 ^ (k + 1) := by
      have hdv := dval_lt_of_digit hc
      have : (10 : Nat) ^ (k + 1) = 10 ^ k * 10 := by ring
      omega
    rw [ih (x * 10 + dval c) (sc * 10) (k + 1)
      (fun a ha => hd a (by simp [ha])) hx' (by simp at hk ⊢; omega)]
    have hval : digitsVal (c :: r) = dval c * 10 ^ r.length + digitsVal r := by
      have : (c :: r) = [c] ++ r := rfl
      rw [this, digitsVal_append]
      simp [digitsVal]
    simp only [List.length_cons, hval, Prod.mk.injEq]
    refine ⟨by ring, by ring, trivial⟩

theorem fracVal_exact {fp : List Char} (hd : ∀ c ∈ fp, isDigitCh c = true)
    (hl : fp.length ≤ 6) : fracVal fp = (digitsVal fp, 10 ^ fp.length) := by
  unfold fracVal
  rw [fracFold fp 0 1 0 hd (by norm_num) (by omega)]
  simp

/-! ### Structure of well-formed components -/

theorem compOK_spec {c : DurComp} (h : compOK c = true) :
    (∀ x ∈ c.ip, isDigitCh x = true) ∧ (∀ x ∈ c.fp, isDigitCh x = true) ∧
    (c.ip ≠ [] ∨ c.fp ≠ []) ∧ (c.dot = false → c.fp = []) ∧
    (c.ip = [] → c.dot = true) ∧ c.fp.length ≤ 6 ∧
    (c.u = 'h' ∨ c.u = 'm' ∨ c.u = 's' ∨ c.u = 'd') := by
  simp only [compOK, Bool.and_eq_true, List.all_eq_true, Bool.or_eq_true,
    decide_eq_true_eq] at h
  obtain ⟨⟨⟨⟨⟨⟨hip, hfp⟩, hne⟩, hdot⟩, hipd⟩, hlen⟩, hu⟩ := h
  refine ⟨hip, hfp, hne, ?_, ?_, hlen, by tauto⟩
  · intro hd
    rcases hdot with hdot | hdot
    · rw [hd] at hdot; exact absurd hdot (by simp)
    · exact hdot
  · intro hip0
    rcases hipd with hipd | hipd
    · exact absurd hip0 hipd
    · exact hipd

theorem unit_not_digit {u : Char}
    (h : u = 'h' ∨ u = 'm' ∨ u = 's' ∨ u = 'd') : isDigitCh u = false := by
  rcases h with rfl | rfl | rfl | rfl <;> decide

theorem unit_ne_dot {u : Char}
    (h : u = 'h' ∨ u = 'm' ∨ u = 's' ∨ u = 'd') : u ≠ '.' := by
  rcases h with rfl | rfl | rfl | rfl <;> decide

theorem renderComps_cons (c : DurComp) (cs : List DurComp) :
    renderComps (c :: cs) = c.render ++ renderComps cs := by
  simp [renderComps]

theorem render_ne_nil (c : DurComp) : c.render ≠ [] := by
  unfold DurComp.render
  intro h
  have := congrArg List.length h
  simp at this

/-- The head of the text of a well-formed component list is a digit or a
dot. -/
theorem renderComps_head (comps : List DurComp)
    (hwf : ∀ c ∈ comps, compOK c = true) (hne : comps ≠ []) :
    ∃ ch t, renderComps comps = ch :: t ∧ (isDigitCh ch = true ∨ ch = '.') := by
  obtain ⟨c, cs, rfl⟩ : ∃ c cs, comps = c :: cs := by
    cases comps with
    | nil => exact absurd rfl hne
    | cons c cs => exact ⟨c, cs, rfl⟩
  obtain ⟨hip, _, hne2, _, hipd, _, _⟩ := compOK_spec (hwf c (by simp))
  rw [renderComps_cons]
  cases hipc : c.ip with
  | nil =>
    have hdot := hipd hipc
    refine ⟨'.', c.fp ++ [c.u] ++ renderComps cs, ?_, Or.inr rfl⟩
    unfold DurComp.render
    rw [hipc, hdot]
    simp
  | cons a t =>
    refine ⟨a, (t ++ ((if c.dot then '.' :: c.fp else []) ++ [c.u])) ++ renderComps cs,
      ?_, Or.inl (hip a (by simp [hipc]))⟩
    unfold DurComp.render
    rw [hipc]
    simp

/-- Splitting the tokenizer's scan across the text of one well-formed
component followed by arbitrary text that starts with a digit or a dot (or
is empty). -/
theorem dot_not_digit : isDigitCh '.' = false := by decide

theorem durTokenize_step (c : DurComp) (rest : List Char) (fuel : Nat)
    (hc : compOK c = true)
    (hrest : rest = [] ∨ ∃ ch t, rest = ch :: t ∧ (isDigitCh ch = true ∨ ch = '.'))
    (hfuel : rest.length < fuel) :
    durTokenize (fuel + 1) (c.render ++ rest) =
      (durTokenize fuel rest).map (fun ts => ⟨c.ip, c.fp, [c.u]⟩ :: ts) := by
  obtain ⟨hip, hfp, hne2, hdf, hipd, _, hu⟩ := compOK_spec hc
  have hund : isDigitCh c.u = false := unit_not_digit hu
  have hudot : c.u ≠ '.' := unit_ne_dot hu
  have hrender : c.render ++ rest =
      c.ip ++ ((if c.dot then '.' :: c.fp else []) ++ (c.u :: rest)) := by
    unfold DurComp.render
    simp
  have hunitP : ∀ ch : Char, (isDigitCh ch = true ∨ ch = '.') →
      (!isDigitCh ch && decide (ch ≠ '.')) = false := by
    intro ch hch
    rcases hch with hch | hch
    · simp [hch]
    · simp [hch]
  have hPu : (!isDigitCh c.u && decide (c.u ≠ '.')) = true := by
    simp [hund, hudot]
  have hunit_take : List.takeWhile (fun x => !isDigitCh x && decide (x ≠ '.'))
      (c.u :: rest) = [c.u] := by
    rw [List.takeWhile_cons]
    simp only [hPu, if_true]
    rcases hrest with rfl | ⟨ch, t, rfl, hch⟩
    · rfl
    · rw [List.takeWhile_cons]
      simp only [hunitP ch hch, Bool.false_eq_true, if_false]
  have hunit_drop : List.dropWhile (fun x => !isDigitCh x && decide (x ≠ '.'))
      (c.u :: rest) = rest := by
    rw [List.dropWhile_cons]
    simp only [hPu, if_true]
    rcases hrest with rfl | ⟨ch, t, rfl, hch⟩
    · rfl
    · rw [List.dropWhile_cons]
      simp only [hunitP ch hch, Bool.false_eq_true, if_false]
  have hsne : c.render ++ rest ≠ [] := by
    intro h
    exact render_ne_nil c (List.append_eq_nil.1 h).1
  cases hdot : c.dot with
  | true =>
    have htail : (if c.dot then '.' :: c.fp else []) ++ (c.u :: rest) =
        '.' :: (c.fp ++ c.u :: rest) := by rw [hdot]; simp
    have htake : List.takeWhile isDigitCh (c.render ++ rest) = c.ip := by
      rw [hrender, takeWhile_append_all _ _ hip, htail]
      simp [List.takeWhile_cons, dot_not_digit]
    have hdrop : List.dropWhile isDigitCh (c.render ++ rest) =
        '.' :: (c.fp ++ c.u :: rest) := by
      rw [hrender, dropWhile_append_all _ _ hip, htail]
      simp [List.dropWhile_cons, dot_not_digit]
    have hfptake : List.takeWhile isDigitCh (c.fp ++ c.u :: rest) = c.fp := by
      rw [takeWhile_append_all _ _ hfp]
      simp [List.takeWhile_cons, hund]
    have hfpdrop : List.dropWhile isDigitCh (c.fp ++ c.u :: rest) = c.u :: rest := by
      rw [dropWhile_append_all _ _ hfp]
      simp [List.dropWhile_cons, hund]
    simp only [durTokenize, if_neg hsne, htake, hdrop]
    simp only [List.head?_cons, decide_eq_true_eq, if_pos rfl, List.tail_cons,
      hfptake, hfpdrop]
    rw [if_neg (by
      intro hcon
      rcases hne2 with hx | hx <;> exact hx (by tauto))]
    simp only [if_true, hunit_take, hunit_drop]
    rw [if_neg (by simp)]
  | false =>
    have hfp0 : c.fp = [] := hdf hdot
    have hipne : c.ip ≠ [] := by
      rcases hne2 with hx | hx
      · exact hx
      · exact absurd hfp0 hx
    have htail : (if c.dot then '.' :: c.fp else []) ++ (c.u :: rest) =
        c.u :: rest := by rw [hdot]; simp
    have htake : List.takeWhile isDigitCh (c.render ++ rest) = c.ip := by
      rw [hrender, takeWhile_append_all _ _ hip, htail]
      simp [List.takeWhile_cons, hund]
    have hdrop : List.dropWhile isDigitCh (c.render ++ rest) = c.u :: rest := by
      rw [hrender, dropWhile_append_all _ _ hip, htail]
      simp [List.dropWhile_cons, hund]
    have hheadB : decide ((c.u :: rest).head? = some '.') = false := by
      simp [hudot]
    simp only [durTokenize, if_neg hsne, htake, hdrop, hheadB,
      Bool.false_eq_true, if_false]
    rw [if_neg (by intro hcon; exact hipne hcon.1)]
    simp only [hunit_take, hunit_drop]
    rw [if_neg (by simp), hfp0]

theorem durTokenize_render (comps : List DurComp) :
    ∀ fuel, (∀ c ∈ comps, compOK c = true) → (renderComps comps).length < fuel →
      durTokenize fuel (renderComps comps) =
        some (comps.map (fun c => ⟨c.ip, c.fp, [c.u]⟩)) := by
  induction comps with
  | nil =>
    intro fuel _ hf
    obtain ⟨f, rfl⟩ : ∃ f, fuel = f + 1 := ⟨fuel - 1, by omega⟩
    simp [durTokenize, renderComps]
  | cons c cs ih =>
    intro fuel hwf hf
    rw [renderComps_cons] at hf ⊢
    have hcr : 0 < c.render.length := List.length_pos.2 (render_ne_nil c)
    obtain ⟨f, rfl⟩ : ∃ f, fuel = f + 1 :=
      ⟨fuel - 1, by simp [List.length_append] at hf; omega⟩
    have hrest : renderComps cs = [] ∨
        ∃ ch t, renderComps cs = ch :: t ∧ (isDigitCh ch = true ∨ ch = '.') := by
      by_cases hcs : cs = []
      · left; simp [hcs, renderComps]
      · right
        exact renderComps_head cs (fun x hx => hwf x (by simp [hx])) hcs
    have hlen : (renderComps cs).length < f := by
      simp [List.length_append] at hf
      omega
    rw [durTokenize_step c _ f (hwf c (by simp)) hrest hlen,
      ih f (fun x hx => hwf x (by simp [hx])) hlen]
    rfl

theorem unitNs_of_hms {u : Char} (h : u = 'h' ∨ u = 'm' ∨ u = 's') :
    unitNs [u] = some (unitOfChar u) := by
  rcases h with rfl | rfl | rfl <;> decide

theorem unitOfChar_pos {u : Char}
    (h : u = 'h' ∨ u = 'm' ∨ u = 's' ∨ u = 'd') : 0 < unitOfChar u := by
  rcases h with rfl | rfl | rfl | rfl <;> decide

theorem pow10_dvd_unit {u : Char} {k : Nat} (hk : k ≤ 6)
    (h : u = 'h' ∨ u = 'm' ∨ u = 's' ∨ u = 'd') : 10 ^ k ∣ unitOfChar u := by
  refine dvd_trans (pow_dvd_pow 10 hk) ?_
  rcases h with rfl | rfl | rfl | rfl <;> decide

theorem compVal_split (c : DurComp) (hdvd : 10 ^ c.fp.length ∣ unitOfChar c.u) :
    compVal c = digitsVal c.ip * unitOfChar c.u +
      digitsVal c.fp * unitOfChar c.u / 10 ^ c.fp.length := by
  obtain ⟨m, hm⟩ := hdvd
  have hk : 0 < 10 ^ c.fp.length := Nat.pos_pow_of_pos _ (by norm_num)
  unfold compVal
  rw [hm]
  rw [show (digitsVal c.ip * 10 ^ c.fp.length + digitsVal c.fp) *
      (10 ^ c.fp.length * m) =
      (digitsVal c.ip * (10 ^ c.fp.length * m) + digitsVal c.fp * m) *
        10 ^ c.fp.length by ring]
  rw [Nat.mul_div_cancel _ hk]
  rw [show digitsVal c.fp * (10 ^ c.fp.length * m) =
      digitsVal c.fp * m * 10 ^ c.fp.length by ring]
  rw [Nat.mul_div_cancel _ hk]

theorem evalDToks_render (comps : List DurComp) :
    ∀ acc, (∀ c ∈ comps, compOK c = true) →
      (∀ c ∈ comps, c.u = 'h' ∨ c.u = 'm' ∨ c.u = 's') →
      acc + (comps.map compVal).sum ≤ maxInt64 →
      evalDToks (comps.map (fun c => ⟨c.ip, c.fp, [c.u]⟩)) acc =
        .ok (acc + (comps.map compVal).sum) := by
  induction comps with
  | nil => intro acc _ _ _; simp [evalDToks]
  | cons c cs ih =>
    intro acc hwf hu3 hb
    obtain ⟨hip, hfp, _, _, _, hlen, hu4⟩ := compOK_spec (hwf c (by simp))
    have hunit : unitNs [c.u] = some (unitOfChar c.u) := unitNs_of_hms (hu3 c (by simp))
    have hupos : 0 < unitOfChar c.u := unitOfChar_pos hu4
    have hdvd : 10 ^ c.fp.length ∣ unitOfChar c.u := pow10_dvd_unit hlen hu4
    have hsplit := compVal_split c hdvd
    have hsum : (List.map compVal (c :: cs)).sum =
        compVal c + (List.map compVal cs).sum := by simp
    have hcv_le : acc + compVal c + (List.map compVal cs).sum ≤ maxInt64 := by
      rw [hsum] at hb
      omega
    have hvu_le : digitsVal c.ip * unitOfChar c.u ≤ compVal c := by
      rw [hsplit]
      exact Nat.le_add_right _ _
    have hv_le : digitsVal c.ip ≤ maxInt64 := by
      have h1 : digitsVal c.ip ≤ digitsVal c.ip * unitOfChar c.u :=
        Nat.le_mul_of_pos_right _ hupos
      omega
    have hdiv_le : digitsVal c.ip ≤ maxInt64 / unitOfChar c.u := by
      refine (Nat.le_div_iff_mul_le hupos).2 ?_
      omega
    simp only [List.map_cons, evalDToks, hunit]
    rw [if_neg (by omega)]
    rw [if_neg (by omega)]
    simp only [fracVal_exact hfp hlen]
    rw [if_neg (by omega), if_neg (by omega)]
    rw [← hsplit]
    rw [ih (acc + compVal c) (fun x hx => hwf x (by simp [hx]))
      (fun x hx => hu3 x (by simp [hx])) (by omega)]
    congr 1
    simp only [List.map_cons, List.sum_cons]
    omega

theorem render_len2 {c : DurComp} (hc : compOK c = true) : 2 ≤ c.render.length := by
  obtain ⟨_, _, hne2, _, hipd, _, _⟩ := compOK_spec hc
  unfold DurComp.render
  cases hipc : c.ip with
  | nil =>
    have hdot := hipd hipc
    have hfpne : c.fp ≠ [] := by
      rcases hne2 with hx | hx
      · exact absurd hipc hx
      · exact hx
    have : 0 < c.fp.length := List.length_pos.2 hfpne
    simp only [hdot, if_true, List.nil_append, List.cons_append, List.length_cons,
      List.length_append]
    omega
  | cons a t =>
    simp only [List.cons_append, List.length_cons, List.length_append]
    omega

theorem parseGoDuration_render (comps : List DurComp)
    (hcomps : comps ≠ []) (hwf : ∀ c ∈ comps, compOK c = true)
    (hu3 : ∀ c ∈ comps, c.u = 'h' ∨ c.u = 'm' ∨ c.u = 's')
    (hb : (comps.map compVal).sum ≤ maxInt64) :
    parseGoDuration (renderComps comps) =
      .ok (((comps.map compVal).sum : Nat) : Int) := by
  obtain ⟨ch, t, hrc, hcls⟩ := renderComps_head comps hwf hcomps
  have hne1 : ch ≠ '-' := by
    rcases hcls with hd | hd
    · exact ne_of_digit hd (by decide)
    · rw [hd]; decide
  have hne2 : ch ≠ '+' := by
    rcases hcls with hd | hd
    · exact ne_of_digit hd (by decide)
    · rw [hd]; decide
  have hlen2 : 2 ≤ (renderComps comps).length := by
    obtain ⟨c, cs, rfl⟩ : ∃ c cs, comps = c :: cs := by
      cases comps with
      | nil => exact absurd rfl hcomps
      | cons c cs => exact ⟨c, cs, rfl⟩
    rw [renderComps_cons]
    have := render_len2 (hwf c (by simp))
    simp [List.length_append]
    omega
  have hhead : (renderComps comps).head? = some ch := by rw [hrc]; rfl
  unfold parseGoDuration
  simp only [hhead, Option.some.injEq]
  have hsif : (if ch = '-' ∨ ch = '+' then (renderComps comps).tail
      else renderComps comps) = renderComps comps :=
    if_neg (by push_neg; exact ⟨hne1, hne2⟩)
  rw [hsif]
  have hz : ¬ (renderComps comps = ['0']) := by
    intro hcon
    have hl := congrArg List.length hcon
    simp only [List.length_singleton] at hl
    omega
  have he : ¬ (renderComps comps = []) := by
    intro hcon
    have hl := congrArg List.length hcon
    simp only [List.length_nil] at hl
    omega
  rw [if_neg hz, if_neg he]
  simp only [durTokenize_render comps ((renderComps comps).length + 1) hwf (by omega),
    evalDToks_render comps 0 hwf hu3 (by simpa using hb)]
  simp [hne1]

/-! ### The day-component regexp search -/

theorem head?_decomp {l : List Char} {c : Char} (h : l.head? = some c) :
    ∃ t, l = c :: t := by
  cases l with
  | nil => simp at h
  | cons a t =>
    simp only [List.head?_cons, Option.some.injEq] at h
    exact ⟨t, by rw [h]⟩

theorem pred_of_mem_takeWhile {p : Char → Bool} {x : Char} :
    ∀ {l : List Char}, x ∈ List.takeWhile p l → p x = true := by
  intro l
  induction l with
  | nil => intro h; simp at h
  | cons a as ih =>
    intro h
    rw [List.takeWhile_cons] at h
    by_cases hp : p a
    · simp only [hp, if_true, List.mem_cons] at h
      rcases h with rfl | h
      · exact hp
      · exact ih h
    · simp [hp] at h

/-- The sign-less part of a day-regexp match: if the scan over
`digits [. digits] d` succeeds on `s0`, then `s0` splits before a literal
`'d'` into digit-and-dot characters only. -/
theorem matchDayCore_decomp (s0 : List Char) (k v1 v2 : Nat)
    (h : (if (List.dropWhile isDigitCh s0).head? = some '.' then
        (if ((List.dropWhile isDigitCh s0).tail.dropWhile isDigitCh).head? =
            some 'd' then some v1
        else none)
      else if (List.dropWhile isDigitCh s0).head? = some 'd' then some v2
      else none) = some k) :
    ∃ a rest, s0 = a ++ 'd' :: rest ∧
      ∀ x ∈ a, isDigitCh x = true ∨ x = '.' := by
  by_cases hdot : (List.dropWhile isDigitCh s0).head? = some '.'
  · rw [if_pos hdot] at h
    obtain ⟨r2, hr2⟩ := head?_decomp hdot
    rw [hr2] at h
    simp only [List.tail_cons] at h
    by_cases hd : (r2.dropWhile isDigitCh).head? = some 'd'
    · obtain ⟨r3, hr3⟩ := head?_decomp hd
      have hT : s0 = List.takeWhile isDigitCh s0 ++ '.' :: r2 := by
        have h0 := (List.takeWhile_append_dropWhile isDigitCh s0).symm
        rw [hr2] at h0
        exact h0
      have hR : r2 = List.takeWhile isDigitCh r2 ++ 'd' :: r3 := by
        have h0 := (List.takeWhile_append_dropWhile isDigitCh r2).symm
        rw [hr3] at h0
        exact h0
      refine ⟨List.takeWhile isDigitCh s0 ++ '.' :: List.takeWhile isDigitCh r2,
        r3, ?_, ?_⟩
      · conv_lhs => rw [hT]
        conv_lhs => rw [hR]
        simp
      · intro x hx
        simp only [List.mem_append, List.mem_cons] at hx
        rcases hx with hx | (rfl | hx)
        · exact Or.inl (pred_of_mem_takeWhile hx)
        · exact Or.inr rfl
        · exact Or.inl (pred_of_mem_takeWhile hx)
    · rw [if_neg hd] at h
      exact Option.noConfusion h
  · rw [if_neg hdot] at h
    by_cases hd : (List.dropWhile isDigitCh s0).head? = some 'd'
    · obtain ⟨r2, hr2⟩ := head?_decomp hd
      have hT : s0 = List.takeWhile isDigitCh s0 ++ 'd' :: r2 := by
        have h0 := (List.takeWhile_append_dropWhile isDigitCh s0).symm
        rw [hr2] at h0
        exact h0
      exact ⟨List.takeWhile isDigitCh s0, r2, hT,
        fun x hx => Or.inl (pred_of_mem_takeWhile hx)⟩
    · rw [if_neg hd] at h
      exact Option.noConfusion h

/-- A successful match attempt of the day regexp consumes only sign, digit
and dot characters before a literal `'d'`. -/
theorem matchDayAt_decomp {s : List Char} {k : Nat} (h : matchDayAt s = some k) :
    ∃ a rest, s = a ++ 'd' :: rest ∧
      ∀ x ∈ a, x = '-' ∨ x = '+' ∨ isDigitCh x = true ∨ x = '.' := by
  unfold matchDayAt at h
  by_cases hs : s.head? = some '-' ∨ s.head? = some '+'
  · rw [if_pos hs] at h
    obtain ⟨c0, t0, rfl⟩ : ∃ c0 t0, s = c0 :: t0 := by
      rcases hs with hs | hs
      · obtain ⟨t, ht⟩ := head?_decomp hs; exact ⟨_, _, ht⟩
      · obtain ⟨t, ht⟩ := head?_decomp hs; exact ⟨_, _, ht⟩
    have hc0 : c0 = '-' ∨ c0 = '+' := by
      rcases hs with hs | hs <;> simp only [List.head?_cons,
        Option.some.injEq] at hs
      · exact Or.inl hs
      · exact Or.inr hs
    simp only [List.drop_succ_cons, List.drop_zero] at h
    obtain ⟨a, rest, heq, hcls⟩ := matchDayCore_decomp t0 _ _ _ h
    refine ⟨c0 :: a, rest, by simp [heq], ?_⟩
    intro x hx
    simp only [List.mem_cons] at hx
    rcases hx with rfl | hx
    · rcases hc0 with rfl | rfl
      · exact Or.inl rfl
      · exact Or.inr (Or.inl rfl)
    · rcases hcls x hx with hc | hc
      · exact Or.inr (Or.inr (Or.inl hc))
      · exact Or.inr (Or.inr (Or.inr hc))
  · rw [if_neg hs] at h
    simp only [List.drop_zero] at h
    obtain ⟨a, rest, heq, hcls⟩ := matchDayCore_decomp s _ _ _ h
    refine ⟨a, rest, heq, ?_⟩
    intro x hx
    rcases hcls x hx with hc | hc
    · exact Or.inr (Or.inr (Or.inl hc))
    · exact Or.inr (Or.inr (Or.inr hc))

theorem matchDayAt_d_mem {s : List Char} {k : Nat} (h : matchDayAt s = some k) :
    'd' ∈ s := by
  obtain ⟨a, rest, rfl, _⟩ := matchDayAt_decomp h
  simp

/-- No match attempt can start inside text that ends with a unit letter
`h`/`m`/`s` and contains no `'d'`: the consumed region would have to cover
that letter. -/
theorem mem_of_getLast?_eq {l : List Char} {u : Char}
    (h : l.getLast? = some u) : u ∈ l := by
  induction l with
  | nil => simp at h
  | cons a t ih =>
    cases t with
    | nil =>
      simp only [List.getLast?_singleton, Option.some.injEq] at h
      simp [h]
    | cons b t2 =>
      rw [List.getLast?_cons_cons] at h
      exact List.mem_cons_of_mem _ (ih h)

theorem matchDayAt_none_of_blocked (b t : List Char) {u : Char}
    (hlast : b.getLast? = some u) (hu : u = 'h' ∨ u = 'm' ∨ u = 's')
    (hnd : 'd' ∉ b) : matchDayAt (b ++ t) = none := by
  cases hm : matchDayAt (b ++ t) with
  | none => rfl
  | some k =>
    exfalso
    obtain ⟨a, rest, heq, hcls⟩ := matchDayAt_decomp hm
    have humem : u ∈ b := mem_of_getLast?_eq hlast
    rcases List.append_eq_append_iff.1 heq with ⟨a2, ha, _⟩ | ⟨c2, hb, hc⟩
    · -- b is a prefix of a: its last letter would be a sign/digit/dot
      have hua : u ∈ a := by rw [ha]; simp [humem]
      rcases hu with rfl | rfl | rfl <;>
        rcases hcls _ hua with hx | hx | hx | hx <;> revert hx <;> decide
    · -- b = a ++ c2 with c2 a prefix of 'd' :: rest
      cases c2 with
      | nil =>
        have hua : u ∈ a := by rw [hb] at humem; simpa using humem
        rcases hu with rfl | rfl | rfl <;>
          rcases hcls _ hua with hx | hx | hx | hx <;> revert hx <;> decide
      | cons c0 c2t =>
        have hc0 : c0 = 'd' := by
          have h2 := congrArg List.head? hc
          simp at h2
          exact h2.symm
        exact hnd (by rw [hb, hc0]; simp)

/-- Leftmost search skips a blocked region entirely. -/
theorem findDayAux_append (xs ys : List Char) :
    ∀ i, (∀ b, b ≠ [] → b <:+ xs → matchDayAt (b ++ ys) = none) →
      findDayAux (xs ++ ys) i = findDayAux ys (i + xs.length) := by
  induction xs with
  | nil => intro i _; simp
  | cons x xt ih =>
    intro i hb
    have h0 : matchDayAt (x :: (xt ++ ys)) = none := by
      have := hb (x :: xt) (by simp) (List.suffix_refl _)
      simpa using this
    simp only [List.cons_append, findDayAux, List.append_eq, h0]
    rw [ih (i + 1) (fun b hbne hbs => hb b hbne (hbs.trans (List.suffix_cons x xt)))]
    congr 1
    simp [List.length_cons]
    omega

theorem findDayAux_no_d (s : List Char) : ∀ i, 'd' ∉ s → findDayAux s i = none := by
  induction s with
  | nil => intro i _; rfl
  | cons c rest ih =>
    intro i hnd
    have h0 : matchDayAt (c :: rest) = none := by
      cases hm : matchDayAt (c :: rest) with
      | none => rfl
      | some k => exact absurd (matchDayAt_d_mem hm) hnd
    simp only [findDayAux, h0]
    exact ih (i + 1) (fun hc => hnd (List.mem_cons_of_mem c hc))

/-- `FindStringIndex` on a string without `'d'` finds nothing. -/
theorem findDay_no_d {s : List Char} (h : 'd' ∉ s) : findDay s = none :=
  findDayAux_no_d s 0 h

theorem d_not_digit : isDigitCh 'd' = false := by decide

/-- The day regexp matches exactly the text of a well-formed `d` component
at its start. -/
theorem matchDayAt_dcomp (c : DurComp) (rest : List Char)
    (hc : compOK c = true) (hcu : c.u = 'd') :
    matchDayAt (c.render ++ rest) = some c.render.length := by
  obtain ⟨hip, hfp, hne2, hdf, hipd, _, _⟩ := compOK_spec hc
  have hrender : c.render ++ rest =
      c.ip ++ ((if c.dot then '.' :: c.fp else []) ++ ('d' :: rest)) := by
    unfold DurComp.render
    rw [hcu]
    simp
  have hhead : ∃ ch t, c.render ++ rest = ch :: t ∧ (isDigitCh ch = true ∨ ch = '.') := by
    cases hipc : c.ip with
    | nil =>
      have hdot := hipd hipc
      rw [hrender, hipc, hdot]
      exact ⟨'.', c.fp ++ 'd' :: rest, by simp, Or.inr rfl⟩
    | cons a t =>
      rw [hrender, hipc]
      exact ⟨a, t ++ ((if c.dot then '.' :: c.fp else []) ++ ('d' :: rest)),
        by simp, Or.inl (hip a (by simp [hipc]))⟩
  obtain ⟨ch, t0, heq, hcls⟩ := hhead
  have hne1 : ch ≠ '-' := by
    rcases hcls with hd | hd
    · exact ne_of_digit hd (by decide)
    · rw [hd]; decide
  have hne2' : ch ≠ '+' := by
    rcases hcls with hd | hd
    · exact ne_of_digit hd (by decide)
    · rw [hd]; decide
  have hhead? : (c.render ++ rest).head? = some ch := by rw [heq]; rfl
  unfold matchDayAt
  simp only [hhead?, Option.some.injEq]
  have hsif : (if ch = '-' ∨ ch = '+' then 1 else 0) = 0 :=
    if_neg (by push_neg; exact ⟨hne1, hne2'⟩)
  rw [hsif]
  simp only [List.drop_zero]
  have htake : List.takeWhile isDigitCh (c.render ++ rest) = c.ip := by
    rw [hrender, takeWhile_append_all _ _ hip]
    cases hdot : c.dot with
    | true => simp [List.takeWhile_cons, dot_not_digit]
    | false =>
      simp [List.takeWhile_cons, d_not_digit]
  have hdrop : List.dropWhile isDigitCh (c.render ++ rest) =
      (if c.dot then '.' :: c.fp else []) ++ ('d' :: rest) := by
    rw [hrender, dropWhile_append_all _ _ hip]
    cases hdot : c.dot with
    | true => simp [List.dropWhile_cons, dot_not_digit]
    | false => simp [List.dropWhile_cons, d_not_digit]
  rw [htake, hdrop]
  cases hdot : c.dot with
  | true =>
    have hfs : List.takeWhile isDigitCh (c.fp ++ 'd' :: rest) = c.fp := by
      rw [takeWhile_append_all _ _ hfp]
      simp [List.takeWhile_cons, d_not_digit]
    have hfd : List.dropWhile isDigitCh (c.fp ++ 'd' :: rest) = 'd' :: rest := by
      rw [dropWhile_append_all _ _ hfp]
      simp [List.dropWhile_cons, d_not_digit]
    simp only [eq_self_iff_true, if_true, List.cons_append, List.head?_cons,
      Option.some.injEq, List.tail_cons, hfs, hfd]
    unfold DurComp.render
    rw [hdot]
    simp only [if_true, List.length_append, List.length_cons,
      List.length_singleton, List.length_nil]
    omega
  | false =>
    simp only [Bool.false_eq_true, if_false, List.nil_append, List.head?_cons,
      Option.some.injEq]
    rw [if_neg (show ¬('d' = '.') by decide)]
    simp only [eq_self_iff_true, if_true, Option.some.injEq]
    unfold DurComp.render
    rw [hdot]
    simp only [Bool.false_eq_true, if_false, List.length_append,
      List.length_nil, List.length_cons, List.length_singleton]
    omega

theorem renderComps_append (l1 l2 : List DurComp) :
    renderComps (l1 ++ l2) = renderComps l1 ++ renderComps l2 := by
  simp [renderComps]

theorem render_mem_class {c : DurComp} {x : Char} (hc : compOK c = true)
    (hx : x ∈ c.render) :
    isDigitCh x = true ∨ x = '.' ∨ x = c.u := by
  obtain ⟨hip, hfp, _, _, _, _, _⟩ := compOK_spec hc
  unfold DurComp.render at hx
  simp only [List.mem_append, List.mem_cons] at hx
  rcases hx with (hx | hx) | (hx | hfalse)
  · exact Or.inl (hip x hx)
  · cases hdot : c.dot with
    | true =>
      rw [hdot] at hx
      simp only [if_true, List.mem_cons] at hx
      rcases hx with rfl | hx
      · exact Or.inr (Or.inl rfl)
      · exact Or.inl (hfp x hx)
    | false =>
      rw [hdot] at hx
      simp at hx
  · exact Or.inr (Or.inr hx)
  · simp at hfalse

theorem renderComps_no_d (comps : List DurComp)
    (hwf : ∀ c ∈ comps, compOK c = true)
    (hnd : ∀ c ∈ comps, c.u ≠ 'd') : 'd' ∉ renderComps comps := by
  intro hmem
  unfold renderComps at hmem
  rw [List.mem_flatten] at hmem
  obtain ⟨l, hl, hdl⟩ := hmem
  rw [List.mem_map] at hl
  obtain ⟨c, hcm, rfl⟩ := hl
  rcases render_mem_class (hwf c hcm) hdl with hx | hx | hx
  · exact absurd hx (by decide)
  · exact absurd hx (by decide)
  · exact hnd c hcm hx.symm

theorem renderComps_getLast :
    ∀ comps : List DurComp, (∀ c ∈ comps, compOK c = true) → comps ≠ [] →
      ∃ c ∈ comps, (renderComps comps).getLast? = some c.u := by
  intro comps
  induction comps with
  | nil => intro _ h; exact absurd rfl h
  | cons c cs ih =>
    intro hwf _
    cases hcs : cs with
    | nil =>
      subst hcs
      refine ⟨c, by simp, ?_⟩
      have h1 : renderComps [c] = c.render := by simp [renderComps]
      rw [h1]
      have h2 : c.render = (c.ip ++ (if c.dot then '.' :: c.fp else [])) ++ [c.u] := by
        unfold DurComp.render
        simp
      rw [h2, List.getLast?_concat]
    | cons c2 cs2 =>
      subst hcs
      obtain ⟨cx, hcxm, hlast⟩ := ih (fun x hx => hwf x (by simp [hx])) (by simp)
      refine ⟨cx, List.mem_cons_of_mem c hcxm, ?_⟩
      rw [renderComps_cons]
      have hRne : renderComps (c2 :: cs2) ≠ [] := by
        intro h0
        rw [h0] at hlast
        simp at hlast
      rw [List.getLast?_append_of_ne_nil _ hRne]
      exact hlast

/-- `FindStringIndex` on the text of a component list with exactly one day
component returns precisely the span of that component. -/
theorem findDay_render_split (pre suf : List DurComp) (cd : DurComp)
    (hwf : ∀ c ∈ pre ++ cd :: suf, compOK c = true)
    (hpre : ∀ c ∈ pre, c.u ≠ 'd') (hcd : cd.u = 'd') :
    findDay (renderComps (pre ++ cd :: suf)) =
      some ((renderComps pre).length,
        (renderComps pre).length + cd.render.length) := by
  have hsplit : renderComps (pre ++ cd :: suf) =
      renderComps pre ++ (cd.render ++ renderComps suf) := by
    rw [renderComps_append, renderComps_cons]
  unfold findDay
  rw [hsplit]
  rw [findDayAux_append (renderComps pre) (cd.render ++ renderComps suf) 0 ?hb]
  case hb =>
    intro b hbne hbs
    have hpne : pre ≠ [] := by
      intro h0
      subst h0
      have hb0 : b = [] := by
        simpa [renderComps] using List.eq_nil_of_suffix_nil (by simpa [renderComps] using hbs)
      exact hbne hb0
    obtain ⟨cx, hcxm, hlastA⟩ :=
      renderComps_getLast pre (fun x hx => hwf x (by simp [hx])) hpne
    obtain ⟨p2, hp2⟩ := hbs
    have hlastb : b.getLast? = some cx.u := by
      rw [← hp2] at hlastA
      rwa [List.getLast?_append_of_ne_nil _ hbne] at hlastA
    have hcu3 : cx.u = 'h' ∨ cx.u = 'm' ∨ cx.u = 's' := by
      have h4 := (compOK_spec (hwf cx (by simp [hcxm]))).2.2.2.2.2.2
      rcases h4 with h | h | h | h
      · exact Or.inl h
      · exact Or.inr (Or.inl h)
      · exact Or.inr (Or.inr h)
      · exact absurd h (hpre cx hcxm)
    have hnd : 'd' ∉ b := by
      intro hdb
      refine renderComps_no_d pre (fun x hx => hwf x (by simp [hx])) hpre ?_
      rw [← hp2]
      exact List.mem_append.2 (Or.inr hdb)
    exact matchDayAt_none_of_blocked b _ hlastb hcu3 hnd
  obtain ⟨ch, t0, hct⟩ : ∃ ch t0, cd.render ++ renderComps suf = ch :: t0 := by
    cases hcr : cd.render with
    | nil => exact absurd hcr (render_ne_nil cd)
    | cons a t => exact ⟨a, t ++ renderComps suf, by rw [← hcr]; simp [hcr]⟩
  have hm := matchDayAt_dcomp cd (renderComps suf) (hwf cd (by simp)) hcd
  rw [hct] at hm ⊢
  simp only [findDayAux, hm]
  norm_num

/-! ### The day-component replacement -/

theorem take_exact (A rest : List Char) : (A ++ rest).take A.length = A := by
  simp

theorem drop_exact (A rest : List Char) : (A ++ rest).drop A.length = rest := by
  simp

/-- The captured day text `s[is[0] : is[1]-1]` for `s = A ++ (core ++ "d") ++ B`. -/
theorem slice_day (A core B : List Char) :
    ((A ++ ((core ++ ['d']) ++ B)).take (A.length + (core.length + 1) - 1)).drop
      A.length = core := by
  have h1 : A ++ ((core ++ ['d']) ++ B) = (A ++ core) ++ ('d' :: B) := by simp
  have h2 : A.length + (core.length + 1) - 1 = (A ++ core).length := by
    simp [List.length_append]
  rw [h1, h2, take_exact, drop_exact]

theorem drop_day (A core B : List Char) :
    (A ++ ((core ++ ['d']) ++ B)).drop (A.length + (core.length + 1)) = B := by
  have h1 : A ++ ((core ++ ['d']) ++ B) = (A ++ (core ++ ['d'])) ++ B := by simp
  have h2 : A.length + (core.length + 1) = (A ++ (core ++ ['d'])).length := by
    simp [List.length_append]
  rw [h1, h2, drop_exact]

theorem take_day (A core B : List Char) :
    (A ++ ((core ++ ['d']) ++ B)).take A.length = A :=
  take_exact A _

theorem takeWhile_all {p : Char → Bool} (l : List Char)
    (h : ∀ x ∈ l, p x = true) : List.takeWhile p l = l := by
  have := takeWhile_append_all (p := p) l [] h
  simpa using this

theorem dropWhile_all {p : Char → Bool} (l : List Char)
    (h : ∀ x ∈ l, p x = true) : List.dropWhile p l = [] := by
  have := dropWhile_append_all (p := p) l [] h
  simpa using this

/-- `ParseFloat` on the digit-and-dot text of a component: the exact value. -/
theorem parseFloatQ_core (c : DurComp) (hc : compOK c = true) :
    parseFloatQ (c.ip ++ (if c.dot then '.' :: c.fp else [])) =
      some ((digitsVal c.ip * 10 ^ c.fp.length + digitsVal c.fp : ℚ) /
        10 ^ c.fp.length) := by
  obtain ⟨hip, hfp, hne2, hdf, hipd, _, _⟩ := compOK_spec hc
  obtain ⟨ch, t0, hct, hd1, hd2⟩ : ∃ ch t0,
      c.ip ++ (if c.dot then '.' :: c.fp else []) = ch :: t0 ∧
      ch ≠ '-' ∧ ch ≠ '+' := by
    cases hipc : c.ip with
    | nil =>
      have hdot := hipd hipc
      exact ⟨'.', c.fp, by simp [hipc, hdot], by decide, by decide⟩
    | cons a t =>
      have ha : isDigitCh a = true := hip a (by simp [hipc])
      exact ⟨a, t ++ (if c.dot then '.' :: c.fp else []), by simp [hipc],
        ne_of_digit ha (by decide), ne_of_digit ha (by decide)⟩
  have hhd : (c.ip ++ (if c.dot then '.' :: c.fp else [])).head? = some ch := by
    rw [hct]; rfl
  unfold parseFloatQ
  simp only [hhd, Option.some.injEq]
  have hsgn : (if ch = '-' then (-1 : ℚ) else 1) = 1 := if_neg hd1
  have hs0 : (if ch = '-' ∨ ch = '+' then
      (c.ip ++ (if c.dot then '.' :: c.fp else [])).tail
      else c.ip ++ (if c.dot then '.' :: c.fp else [])) =
      c.ip ++ (if c.dot then '.' :: c.fp else []) :=
    if_neg (by push_neg; exact ⟨hd1, hd2⟩)
  rw [hsgn, hs0]
  cases hdot : c.dot with
  | false =>
    have hfp0 : c.fp = [] := hdf hdot
    have hipne : c.ip ≠ [] := by
      rcases hne2 with hx | hx
      · exact hx
      · exact absurd hfp0 hx
    simp only [hdot, Bool.false_eq_true, if_false, List.append_nil]
    rw [takeWhile_all c.ip hip, dropWhile_all c.ip hip]
    rw [if_pos rfl, if_neg hipne, hfp0]
    simp [digitsVal]
  | true =>
    simp only [hdot, if_true]
    rw [takeWhile_append_all _ _ hip, dropWhile_append_all _ _ hip]
    simp only [List.takeWhile_cons, dot_not_digit, Bool.false_eq_true, if_false,
      List.dropWhile_cons, List.append_nil]
    rw [if_neg (by simp)]
    rw [if_pos (by simp)]
    simp only [List.tail_cons]
    rw [takeWhile_all c.fp hfp, dropWhile_all c.fp hfp]
    rw [if_neg (by simp)]
    rw [if_neg (by
      intro hcon
      rcases hne2 with hx | hx
      · exact hx hcon.1
      · exact hx hcon.2)]
    simp

/-- `FormatFloat(days*24, 'f', 6, 64)` for an exact day value with at most
six fractional digits: the decimal string of `(a.b) * 24` with six
fractional digits, computed exactly. -/
theorem formatFloat6_day (a b k : Nat) (hk : k ≤ 6) :
    formatFloat6 ((a * 10 ^ k + b : ℚ) / 10 ^ k * 24) =
      natDigits ((a * 10 ^ k + b) * 24 * 10 ^ (6 - k) / 1000000) ++
      '.' :: natDigitsPad 6 ((a * 10 ^ k + b) * 24 * 10 ^ (6 - k) % 1000000) := by
  have h10 : ((10 : ℚ)) ^ k ≠ 0 := by positivity
  have hps : ((10 : ℚ)) ^ (6 - k) * 10 ^ k = 10 ^ 6 := by
    rw [← pow_add]
    congr 1
    omega
  have hq : (a * 10 ^ k + b : ℚ) / 10 ^ k * 24 * 1000000 =
      (((a * 10 ^ k + b) * 24 * 10 ^ (6 - k) : Nat) : ℚ) := by
    push_cast
    rw [div_mul_eq_mul_div, div_mul_eq_mul_div, div_eq_iff h10]
    calc (a * 10 ^ k + b : ℚ) * 24 * 1000000 =
        (a * 10 ^ k + b) * 24 * 10 ^ 6 := by norm_num
    _ = (a * 10 ^ k + b) * 24 * (10 ^ (6 - k) * 10 ^ k) := by rw [hps]
    _ = (a * 10 ^ k + b) * 24 * 10 ^ (6 - k) * 10 ^ k := by ring
  unfold formatFloat6
  rw [hq, round_natCast]
  simp only [Int.natAbs_ofNat]
  rw [if_neg (by
    push_neg
    exact Int.natCast_nonneg _)]
  simp

/-- Splitting a list around the unique element satisfying `p`. -/
theorem filter_single_split {p : DurComp → Bool} :
    ∀ (l : List DurComp) (x : DurComp), l.filter p = [x] →
      ∃ pre suf, l = pre ++ x :: suf ∧ (∀ y ∈ pre, p y = false) ∧
        (∀ y ∈ suf, p y = false) := by
  intro l
  induction l with
  | nil => intro x h; simp at h
  | cons c cs ih =>
    intro x h
    by_cases hp : p c
    · rw [List.filter_cons_of_pos hp] at h
      have hcx : c = x ∧ cs.filter p = [] := by
        have h2 := h
        rw [List.cons.injEq] at h2
        exact h2
      obtain ⟨rfl, hnil⟩ := hcx
      refine ⟨[], cs, by simp, by simp, ?_⟩
      intro y hy
      have := List.filter_eq_nil_iff.1 hnil y hy
      simpa using this
    · rw [List.filter_cons_of_neg hp] at h
      obtain ⟨pre, suf, rfl, h1, h2⟩ := ih x h
      refine ⟨c :: pre, suf, by simp, ?_, h2⟩
      intro y hy
      rcases List.mem_cons.1 hy with rfl | hy
      · simpa using hp
      · exact h1 y hy

theorem dayVal_conv (C k : Nat) (hk : k ≤ 6) :
    C * 24 * 10 ^ (6 - k) * 3600000 = C * 86400000000000 / 10 ^ k := by
  have h1 : (86400000000000 : Nat) = 24 * 3600000 * 10 ^ 6 := by norm_num
  have h2 : (10 : Nat) ^ 6 = 10 ^ k * 10 ^ (6 - k) := by
    rw [← pow_add]
    congr 1
    omega
  rw [h1, h2]
  rw [show C * (24 * 3600000 * (10 ^ k * 10 ^ (6 - k))) =
    C * 24 * 10 ^ (6 - k) * 3600000 * 10 ^ k by ring]
  rw [Nat.mul_div_cancel _ (Nat.pos_pow_of_pos _ (by norm_num))]

/-- Value of the `h` component generated from the day value `nd / 10^6`. -/
theorem compVal_hcomp (nd : Nat) :
    compVal ⟨natDigits (nd / 1000000), true, natDigitsPad 6 (nd % 1000000), 'h'⟩ =
      nd * 3600000 := by
  have hlt : nd % 1000000 < 10 ^ 6 := by
    calc nd % 1000000 < 1000000 := Nat.mod_lt _ (by norm_num)
    _ = 10 ^ 6 := by norm_num
  unfold compVal
  simp only
  rw [natDigitsPad_len hlt, natDigits_val, natDigitsPad_val]
  have hu : unitOfChar 'h' = 3600000000000 := by decide
  rw [hu]
  rw [show (10 : Nat) ^ 6 = 1000000 by norm_num, Nat.div_add_mod']
  rw [show (3600000000000 : Nat) = 3600000 * 1000000 by norm_num]
  rw [← Nat.mul_assoc, Nat.mul_div_cancel _ (by norm_num)]

theorem compVal_day (cd : DurComp) (hcd : cd.u = 'd') (hk : cd.fp.length ≤ 6) :
    compVal cd = (digitsVal cd.ip * 10 ^ cd.fp.length + digitsVal cd.fp) * 24 *
      10 ^ (6 - cd.fp.length) * 3600000 := by
  unfold compVal
  rw [hcd]
  have hu : unitOfChar 'd' = 86400000000000 := by decide
  rw [hu]
  exact (dayVal_conv _ _ hk).symm

/-! ## Claim C1 (corrected): duration parsing accumulates components -/

/-- C1 amended: for every non-empty list of well-formed `h`/`m`/`s`/`d` unit
components with AT MOST ONE day component (each with at least one digit, at
most six fractional digits, total within the int64 range),
`durationValue.Set` on their concatenated text succeeds and stores exactly
the sum of the components' contributions — so later occurrences of a unit
add to earlier ones; the empty string and the unparseable string `"bla"`
make `Set` return an error (storing 0). -/
theorem duration_set_sums :
    (∀ (prev : Int) (comps : List DurComp), comps ≠ [] →
      (∀ c ∈ comps, compOK c = true) →
      (comps.filter (fun c => decide (c.u = 'd'))).length ≤ 1 →
      (comps.map compVal).sum ≤ maxInt64 →
      durationValueSetPair prev (renderComps comps) =
        (.ok (), ((comps.map compVal).sum : Int))) ∧
    (∀ prev : Int, durationValueSetPair prev [] = (.error (), 0)) ∧
    (∀ prev : Int, durationValueSetPair prev ['b', 'l', 'a'] = (.error (), 0)) := by
  refine ⟨?_, fun prev => rfl, fun prev => rfl⟩
  intro prev comps hne hwf hcount hsum
  cases hfe : comps.filter (fun c => decide (c.u = 'd')) with
  | nil =>
    have hnd : ∀ c ∈ comps, c.u ≠ 'd' := by
      intro c hcm hcd
      have hmem : c ∈ comps.filter (fun c => decide (c.u = 'd')) :=
        List.mem_filter.2 ⟨hcm, by simp [hcd]⟩
      rw [hfe] at hmem
      simp at hmem
    have hu3 : ∀ c ∈ comps, c.u = 'h' ∨ c.u = 'm' ∨ c.u = 's' := by
      intro c hcm
      rcases (compOK_spec (hwf c hcm)).2.2.2.2.2.2 with h | h | h | h
      · exact Or.inl h
      · exact Or.inr (Or.inl h)
      · exact Or.inr (Or.inr h)
      · exact absurd h (hnd c hcm)
    have hfind : findDay (renderComps comps) = none :=
      findDay_no_d (renderComps_no_d comps hwf hnd)
    unfold durationValueSetPair
    simp only [hfind, parseGoDuration_render comps hne hwf hu3 hsum]
  | cons cd rest0 =>
    have hrest0 : rest0 = [] := by
      have hl := congrArg List.length hfe
      simp only [List.length_cons] at hl
      have : rest0.length = 0 := by omega
      exact List.length_eq_zero.1 this
    subst hrest0
    have hcdu : cd.u = 'd' := by
      have hmem : cd ∈ comps.filter (fun c => decide (c.u = 'd')) := by
        rw [hfe]
        simp
      have := (List.mem_filter.1 hmem).2
      simpa using this
    obtain ⟨pre, suf, rfl, hpre0, hsuf0⟩ := filter_single_split comps cd hfe
    have hpre : ∀ c ∈ pre, c.u ≠ 'd' := by
      intro c hc
      have := hpre0 c hc
      simpa using this
    have hsuf : ∀ c ∈ suf, c.u ≠ 'd' := by
      intro c hc
      have := hsuf0 c hc
      simpa using this
    have hcdwf := hwf cd (by simp)
    have hk : cd.fp.length ≤ 6 := (compOK_spec hcdwf).2.2.2.2.2.1
    have hfind := findDay_render_split pre suf cd hwf hpre hcdu
    have hrd : cd.render = (cd.ip ++ (if cd.dot then '.' :: cd.fp else [])) ++ ['d'] := by
      unfold DurComp.render
      rw [hcdu]
      try simp
    have hshape : renderComps (pre ++ cd :: suf) =
        renderComps pre ++ ((cd.ip ++ (if cd.dot then '.' :: cd.fp else [])) ++ ['d'] ++
          renderComps suf) := by
      rw [renderComps_append, renderComps_cons, hrd]
      try simp
    have hrdl : cd.render.length =
        (cd.ip ++ (if cd.dot then '.' :: cd.fp else [])).length + 1 := by
      rw [hrd]
      simp [List.length_append]
      try omega
    unfold durationValueSetPair
    simp only [hfind]
    have hsl : ((renderComps (pre ++ cd :: suf)).take
          ((renderComps pre).length + cd.render.length - 1)).drop
        (renderComps pre).length =
        cd.ip ++ (if cd.dot then '.' :: cd.fp else []) := by
      rw [hrdl, hshape]
      exact slice_day (renderComps pre) _ (renderComps suf)
    simp only [hsl, parseFloatQ_core cd hcdwf]
    have htk : (renderComps (pre ++ cd :: suf)).take (renderComps pre).length =
        renderComps pre := by
      rw [hshape]
      exact take_exact _ _
    have hdp : (renderComps (pre ++ cd :: suf)).drop
        ((renderComps pre).length + cd.render.length) = renderComps suf := by
      rw [hrdl, hshape]
      exact drop_day (renderComps pre) _ (renderComps suf)
    rw [htk, hdp, formatFloat6_day (digitsVal cd.ip) (digitsVal cd.fp)
      cd.fp.length hk]
    set nd := (digitsVal cd.ip * 10 ^ cd.fp.length + digitsVal cd.fp) * 24 *
      10 ^ (6 - cd.fp.length) with hnd
    set hcomp : DurComp :=
      ⟨natDigits (nd / 1000000), true, natDigitsPad 6 (nd % 1000000), 'h'⟩
      with hhcomp
    have hcompOK : compOK hcomp = true := by
      have hlt : nd % 1000000 < 10 ^ 6 := by
        calc nd % 1000000 < 1000000 := Nat.mod_lt _ (by norm_num)
        _ = 10 ^ 6 := by norm_num
      have hlen6 : (natDigitsPad 6 (nd % 1000000)).length = 6 :=
        natDigitsPad_len hlt
      have h1 : (natDigits (nd / 1000000)).all isDigitCh = true :=
        List.all_eq_true.2 (natDigits_digits _)
      have h2 : (natDigitsPad 6 (nd % 1000000)).all isDigitCh = true :=
        List.all_eq_true.2 (natDigitsPad_digits _ _)
      have h3 := natDigits_ne_nil (nd / 1000000)
      rw [hhcomp]
      unfold compOK
      simp [h1, h2, h3, hlen6]
    have hs2 : renderComps pre ++ renderComps suf ++
        (natDigits (nd / 1000000) ++ '.' :: natDigitsPad 6 (nd % 1000000)) ++
        ['h'] = renderComps (pre ++ (suf ++ [hcomp])) := by
      rw [renderComps_append, renderComps_append]
      simp [renderComps, DurComp.render, hhcomp]
    have hceq : compVal hcomp = compVal cd := by
      rw [hhcomp, compVal_hcomp, compVal_day cd hcdu hk, hnd]
    have hwf2 : ∀ c ∈ pre ++ (suf ++ [hcomp]), compOK c = true := by
      intro c hc
      rcases List.mem_append.1 hc with hc | hc
      · exact hwf c (by simp [hc])
      · rcases List.mem_append.1 hc with hc | hc
        · exact hwf c (by simp [hc])
        · rw [List.mem_singleton.1 hc]
          exact hcompOK
    have hu32 : ∀ c ∈ pre ++ (suf ++ [hcomp]),
        c.u = 'h' ∨ c.u = 'm' ∨ c.u = 's' := by
      intro c hc
      have hclass : ∀ x ∈ pre ++ cd :: suf, compOK x = true := hwf
      rcases List.mem_append.1 hc with hc | hc
      · rcases (compOK_spec (hwf c (by simp [hc]))).2.2.2.2.2.2 with h | h | h | h
        · exact Or.inl h
        · exact Or.inr (Or.inl h)
        · exact Or.inr (Or.inr h)
        · exact absurd h (hpre c hc)
      · rcases List.mem_append.1 hc with hc | hc
        · rcases (compOK_spec (hwf c (by simp [hc]))).2.2.2.2.2.2 with h | h | h | h
          · exact Or.inl h
          · exact Or.inr (Or.inl h)
          · exact Or.inr (Or.inr h)
          · exact absurd h (hsuf c hc)
        · rw [List.mem_singleton.1 hc, hhcomp]
          exact Or.inl rfl
    have hsum_orig : (List.map compVal (pre ++ cd :: suf)).sum =
        (List.map compVal pre).sum + (compVal cd + (List.map compVal suf).sum) := by
      simp
    have hsum2 : (List.map compVal (pre ++ (suf ++ [hcomp]))).sum =
        (List.map compVal (pre ++ cd :: suf)).sum := by
      simp only [List.map_append, List.sum_append, List.map_cons, List.sum_cons,
        List.map_nil, List.sum_nil]
      rw [hceq]
      omega
    have hne2' : pre ++ (suf ++ [hcomp]) ≠ [] := by simp
    rw [hs2]
    simp only [parseGoDuration_render (pre ++ (suf ++ [hcomp])) hne2' hwf2 hu32
      (le_of_eq_of_le hsum2 hsum)]
    rw [hsum2]

instance : DecidableEq (Except Unit Unit) := fun a b =>
  match a, b with
  | .ok u, .ok v => isTrue (by cases u; cases v; rfl)
  | .ok _, .error _ => isFalse (fun h => Except.noConfusion h)
  | .error _, .ok _ => isFalse (fun h => Except.noConfusion h)
  | .error u, .error v => isTrue (by cases u; cases v; rfl)

/-- C1 counterexample to the claim as stated: the input `1d1d` combines two
day components, so under the claimed sum semantics it would parse to 48h;
instead `Set` rewrites only the first (leftmost) day match, hands
`"1d24.000000h"` to `ParseDuration`, and returns an error with 0 stored. -/
theorem duration_set_repeated_day_counterexample :
    durationValueSetPair 0
        (renderComps [⟨['1'], false, [], 'd'⟩, ⟨['1'], false, [], 'd'⟩]) =
      (Except.error (), 0) ∧
    ((List.map compVal [⟨['1'], false, [], 'd'⟩, ⟨['1'], false, [], 'd'⟩]).sum :
        Int) = 172800000000000 ∧
    ((Except.error (), (0 : Int)) :  Except Unit Unit × Int) ≠
      (Except.ok (), 172800000000000) := by
  refine ⟨?_, by decide, fun h => Except.noConfusion (congrArg Prod.fst h)⟩
  have hr : renderComps [(⟨['1'], false, [], 'd'⟩ : DurComp),
      ⟨['1'], false, [], 'd'⟩] =
      renderComps ([] ++ (⟨['1'], false, [], 'd'⟩ : DurComp) ::
        [⟨['1'], false, [], 'd'⟩]) := rfl
  have hfind := findDay_render_split [] [⟨['1'], false, [], 'd'⟩]
    ⟨['1'], false, [], 'd'⟩ (by decide) (by decide) rfl
  unfold durationValueSetPair
  rw [hr]
  simp only [hfind]
  have hsl : ((renderComps ([] ++ (⟨['1'], false, [], 'd'⟩ : DurComp) ::
      [⟨['1'], false, [], 'd'⟩])).take
        ((renderComps ([] : List DurComp)).length +
          (DurComp.render ⟨['1'], false, [], 'd'⟩).length - 1)).drop
      (renderComps ([] : List DurComp)).length =
      (⟨['1'], false, [], 'd'⟩ : DurComp).ip ++
        (if (⟨['1'], false, [], 'd'⟩ : DurComp).dot then
          '.' :: (⟨['1'], false, [], 'd'⟩ : DurComp).fp else []) := rfl
  rw [hsl, parseFloatQ_core ⟨['1'], false, [], 'd'⟩ (by decide)]
  simp only [List.length_nil]
  rw [formatFloat6_day (digitsVal ['1']) (digitsVal ([] : List Char)) 0
    (by norm_num)]
  decide

/-- Witness for C1 at the input `1h1d60m` (= 26h). -/
theorem duration_set_sums_witness :
    durationValueSetPair 0
        (renderComps [⟨['1'], false, [], 'h'⟩, ⟨['1'], false, [], 'd'⟩,
          ⟨['6', '0'], false, [], 'm'⟩]) =
      (Except.ok (), 93600000000000) :=
  (duration_set_sums.1 0
      [⟨['1'], false, [], 'h'⟩, ⟨['1'], false, [], 'd'⟩,
        ⟨['6', '0'], false, [], 'm'⟩]
      (by decide) (by decide) (by decide) (by decide)).trans (by decide)


/-! ## `flags/unixtime.go` (first part): the Unix-date time flag (claims C8, C9)

`unixTime.Set` calls `time.Parse(time.UnixDate, s)` with the fixed layout
`"Mon Jan _2 15:04:05 MST 2006"` and stores the result — the zero `Time`
on failure — before returning the error.  The embedding below follows Go's
`time.Parse` chunk by chunk on exactly this layout, together with every
helper it calls on the way: `lookup` over the day/month-name tables with
Go's case-folding `match`, `getnum` (fixed and non-fixed two-digit
numbers), the `_2` leading-space skip, the fractional-second special case
(`parseNanoseconds`), `parseTimeZone` with its `parseGMT` /
`parseSignedOffset` / `leadingInt` helpers, the trailing-text check, the
`daysIn` day-of-month range check, and the absolute-second computation of
`time.Date` with its literal constants.  One environment fact is fixed by
the model: the process-local time zone is UTC.  Then `lookupName` on the
local zone fails for every parsed abbreviation (the layout's `MST` slot),
`"UTC"` itself being special-cased earlier in `stdTZ`, and `Parse` records
a fabricated `FixedZone` without ever shifting the instant: the returned
time is always the parsed clock fields read as UTC.  Instants are modelled
as nanoseconds since the Unix epoch (`Int`). -/

/-- Go `time.match(s1, s2)`: bytes equal, or equal after setting bit 5 when
that lands in lower-case ASCII. -/
def chMatch (c1 c2 : Char) : Bool :=
  c1 == c2 ||
    (c1.toNat ||| 32 == c2.toNat ||| 32 &&
      decide (97 ≤ (c1.toNat ||| 32)) && decide ((c1.toNat ||| 32) ≤ 122))

/-- `match(val[0:len(v)], v)` together with the `len(val) >= len(v)` guard
of Go's `lookup`: the candidate `v` character-matches a prefix of `val`. -/
def listMatch : List Char → List Char → Bool
  | [], _ => true
  | _ :: _, [] => false
  | c :: cs, d :: ds => chMatch c d && listMatch cs ds

/-- Go `lookup(tab, val)`: first table entry that case-matches a prefix of
`val`; returns its index and the remainder of `val`. -/
def lookupNameAux : List (List Char) → Nat → List Char → Option (Nat × List Char)
  | [], _, _ => none
  | v :: tab, i, val =>
    if listMatch v val then some (i, val.drop v.length)
    else lookupNameAux tab (i + 1) val

/-- Go `lookup` starting at index 0. -/
def lookupName (tab : List (List Char)) (val : List Char) :
    Option (Nat × List Char) :=
  lookupNameAux tab 0 val

/-- Go `shortDayNames` (Sunday first). -/
def shortDayNames : List (List Char) :=
  ["Sun".toList, "Mon".toList, "Tue".toList, "Wed".toList, "Thu".toList,
   "Fri".toList, "Sat".toList]

/-- Go `shortMonthNames`. -/
def shortMonthNames : List (List Char) :=
  ["Jan".toList, "Feb".toList, "Mar".toList, "Apr".toList, "May".toList,
   "Jun".toList, "Jul".toList, "Aug".toList, "Sep".toList, "Oct".toList,
   "Nov".toList, "Dec".toList]

/-- Go `getnum(s, fixed)`: one- or two-digit number; a lone digit is an
error when `fixed` is set. -/
def getnum (fixed : Bool) (s : List Char) : Option (Nat × List Char) :=
  match s with
  | [] => none
  | [c1] => if isDigitCh c1 && !fixed then some (dval c1, []) else none
  | c1 :: c2 :: rest =>
    if isDigitCh c1 then
      if isDigitCh c2 then some (dval c1 * 10 + dval c2, rest)
      else if fixed then none else some (dval c1, c2 :: rest)
    else none

/-- The `stdLongYear` chunk: four bytes, first checked to be a digit, the
slice then fed to `atoi`, which rejects any remaining non-digit. -/
def getnum4 (s : List Char) : Option (Nat × List Char) :=
  match s with
  | c1 :: c2 :: c3 :: c4 :: rest =>
    if isDigitCh c1 && isDigitCh c2 && isDigitCh c3 && isDigitCh c4 then
      some (digitsVal [c1, c2, c3, c4], rest)
    else none
  | _ => none

/-- A literal layout byte: `Parse` requires it verbatim. -/
def expectCh (c : Char) (s : List Char) : Option (List Char) :=
  match s with
  | x :: r => if x = c then some r else none
  | [] => none

/-- The `stdUnderDay` space skip: `if len(value) > 0 && value[0] == ' '`. -/
def underDaySkip (s : List Char) : List Char :=
  if s.head? = some ' ' then s.tail else s

/-- The fractional-second special case after `stdZeroSecond` (the layout
has no fractional chunk): when a comma or period followed by a digit is
present, Go consumes the digit run and converts the first nine digits via
`parseNanoseconds`; otherwise nothing is consumed. -/
def fracNs (s : List Char) : Nat × List Char :=
  match s with
  | c1 :: c2 :: _ =>
    if (c1 == '.' || c1 == ',') && isDigitCh c2 then
      let ds := s.tail.takeWhile isDigitCh
      let nbytes := min (ds.length + 1) 10
      (digitsVal (ds.take (nbytes - 1)) * 10 ^ (10 - nbytes),
        s.tail.dropWhile isDigitCh)
    else (0, s)
  | _ => (0, s)

/-- Upper-case ASCII, as in `parseTimeZone`. -/
def isUpperCh (c : Char) : Bool := decide ('A' ≤ c) && decide (c ≤ 'Z')

/-- Go `time.leadingInt`: digit run with the int64 overflow checks
(`x > (1<<63-1)/10` before the step, wrap-to-negative after). -/
def zoneLeadingIntAux : Nat → List Char → Option (Nat × List Char)
  | x, [] => some (x, [])
  | x, c :: rest =>
    if isDigitCh c then
      if decide (maxInt64 / 10 < x) then none
      else if decide (maxInt64 < x * 10 + dval c) then none
      else zoneLeadingIntAux (x * 10 + dval c) rest
    else some (x, c :: rest)

/-- `leadingInt` from an accumulator of 0. -/
def zoneLeadingInt (s : List Char) : Option (Nat × List Char) :=
  zoneLeadingIntAux 0 s

/-- Go `parseSignedOffset`: the number of bytes of a `+hh` / `-hh` zone
suffix, `0` on bad input (no sign, no digits consumed, or a value
above 24). -/
def parseSignedOffset (s : List Char) : Nat :=
  match s with
  | sign :: rest =>
    if sign == '+' || sign == '-' then
      match zoneLeadingInt rest with
      | none => 0
      | some (x, rem) =>
        if rem.length = rest.length then 0
        else if decide (24 < x) then 0
        else s.length - rem.length
    else 0
  | [] => 0

/-- Go `parseGMT`: `"GMT"` optionally followed by a signed offset. -/
def parseGMT (s : List Char) : Nat :=
  let rest := s.drop 3
  if rest = [] then 3 else 3 + parseSignedOffset rest

/-- Go `parseTimeZone`: the length of the zone abbreviation at the head of
`s`, if any — the `ChST`/`MeST` special cases, `GMT` with offset, signed
offsets, and otherwise a run of three to five upper-case letters with the
`T`-ending rule for four and five. -/
def parseTimeZone (s : List Char) : Option Nat :=
  if decide (s.length < 3) then none
  else if s.take 4 = "ChST".toList || s.take 4 = "MeST".toList then some 4
  else if s.take 3 = "GMT".toList then some (parseGMT s)
  else if s.head? = some '+' || s.head? = some '-' then
    (if decide (0 < parseSignedOffset s) then some (parseSignedOffset s)
     else none)
  else
    match ((s.take 6).takeWhile isUpperCh).length with
    | 3 => some 3
    | 4 => if s.getD 3 ' ' = 'T' || s.take 4 = "WITA".toList then some 4 else none
    | 5 => if s.getD 4 ' ' = 'T' then some 5 else none
    | _ => none

/-- The `stdTZ` chunk of `Parse`: the literal `"UTC"` selects the UTC
location directly; any other abbreviation accepted by `parseTimeZone` is
consumed and (with a UTC local zone, see the section comment) only names a
fabricated zone, never shifting the instant.  Returns the remainder. -/
def parseZone (s : List Char) : Option (List Char) :=
  if s.take 3 = "UTC".toList then some (s.drop 3)
  else match parseTimeZone s with
    | some n => some (s.drop n)
    | none => none

/-- Go `isLeap`. -/
def isLeap (y : Nat) : Bool := y % 4 == 0 && (y % 100 != 0 || y % 400 == 0)

/-- Go `daysBefore`: cumulative days at the start of each month. -/
def daysBefore : List Nat :=
  [0, 31, 59, 90, 120, 151, 181, 212, 243, 273, 304, 334, 365]

/-- Go `daysIn(m, year)`. -/
def daysIn (m y : Nat) : Nat :=
  if m = 2 && isLeap y then 29
  else daysBefore.getD m 0 - daysBefore.getD (m - 1) 0

/-- The absolute-seconds computation of Go `time.Date` (400/100/4-year
cycles from the absolute zero year, `daysBefore`, leap-day and
day-of-month offsets), converted to Unix seconds with Go's literal
constants `absoluteToInternal` and `internalToUnix`. -/
def epochOfDateTime (year month day hour minute sec : Nat) : Int :=
  let y := year + 292277022399
  let n400 := y / 400
  let y1 := y - 400 * n400
  let n100 := y1 / 100
  let y2 := y1 - 100 * n100
  let n4 := y2 / 4
  let y3 := y2 - 4 * n4
  let d := 146097 * n400 + 36524 * n100 + 1461 * n4 + 365 * y3
    + daysBefore.getD (month - 1) 0
    + (if isLeap year && decide (3 ≤ month) then 1 else 0)
    + (day - 1)
  let abs := d * 86400 + hour * 3600 + minute * 60 + sec
  (abs : Int) - 9223371966579724800 - 62135596800

/-- `time.Parse(time.UnixDate, s)` under a UTC local zone: the layout
chunks `Mon`, `' '`, `Jan`, `' '`, `_2`, `' '`, `15`, `':'`, `04`, `':'`,
`05` (with the fractional-second special case), `' '`, `MST`, `' '`,
`2006` in order, the trailing-text check, the hour/minute/second range
checks in place and the day-of-month check at the end, as in the Go
source.  The parsed weekday is never validated against the date.  Returns
the instant in nanoseconds since the Unix epoch. -/
def parseUnixDate (s : List Char) : Option Int :=
  match lookupName shortDayNames s with
  | none => none
  | some (_, sA) =>
  match expectCh ' ' sA with
  | none => none
  | some sB =>
  match lookupName shortMonthNames sB with
  | none => none
  | some (m0, sC) =>
  match expectCh ' ' sC with
  | none => none
  | some sD =>
  match getnum false (underDaySkip sD) with
  | none => none
  | some (day, sE) =>
  match expectCh ' ' sE with
  | none => none
  | some sF =>
  match getnum false sF with
  | none => none
  | some (hour, sG) =>
  if 24 ≤ hour then none else
  match expectCh ':' sG with
  | none => none
  | some sH =>
  match getnum true sH with
  | none => none
  | some (minute, sI) =>
  if 60 ≤ minute then none else
  match expectCh ':' sI with
  | none => none
  | some sJ =>
  match getnum true sJ with
  | none => none
  | some (sec, sK) =>
  if 60 ≤ sec then none else
  match expectCh ' ' (fracNs sK).2 with
  | none => none
  | some sL =>
  match parseZone sL with
  | none => none
  | some sM =>
  match expectCh ' ' sM with
  | none => none
  | some sN =>
  match getnum4 sN with
  | none => none
  | some (year, sO) =>
  if sO ≠ [] then none
  else if day < 1 ∨ daysIn (m0 + 1) year < day then none
  else some (epochOfDateTime year (m0 + 1) day hour minute sec * 1000000000 +
    (fracNs sK).1)

/-- The `stdUnderDay` chunk of `Format`: a space then the bare day number
when it is below ten, the two digits otherwise. -/
def renderDay2 (d : Nat) : List Char :=
  if d < 10 then ' ' :: natDigits d else natDigits d

/-- `Time.Format(time.UnixDate)` on clock fields: weekday name, month
name, `_2` day, zero-padded two-digit clock fields, the zone name, and the
four-digit year.  `Format` derives the weekday, the fields and the zone
name from the instant and its location; they are parameters here so that
the round-trip theorem can quantify over every combination `Format` can
emit (the weekday in particular is never checked by `Parse`). -/
def renderUnixDate (wd year month day hour minute sec : Nat)
    (zone : List Char) : List Char :=
  shortDayNames.getD wd [] ++ ' ' :: shortMonthNames.getD (month - 1) [] ++ ' ' ::
    renderDay2 day ++ ' ' :: natDigitsPad 2 hour ++ ':' :: natDigitsPad 2 minute ++
    ':' :: natDigitsPad 2 sec ++ ' ' :: zone ++ ' ' :: natDigitsPad 4 year

/-- Spec-side (and only here): the offset the abbreviation `CET` denotes,
UTC+01:00.  The claim reads `Set` as producing "the instant the string
denotes"; for a CET wall-clock string that instant is the clock fields
read as UTC minus this offset. -/
def specCETOffset : Int := 3600

/-- Spec-side: the instant (in nanoseconds) denoted by a CET wall-clock
reading, per the claim's words. -/
def specDenotedCET (year month day hour minute sec : Nat) : Int :=
  (epochOfDateTime year month day hour minute sec - specCETOffset) * 1000000000

/-- Go's zero `Time` (January 1, year 1, 00:00:00 UTC) in Unix
nanoseconds: what `time.Parse` returns alongside every error. -/
def goZeroTimeNs : Int := epochOfDateTime 1 1 1 0 0 0 * 1000000000

/-- `unixTime.Set`: parses, assigns the parse result (the zero time on
failure) to the flag storage, and only then returns the error; the
previously stored value is never consulted. -/
def unixTimeSetPair (_prev : Int) (s : List Char) : Except Unit Unit × Int :=
  match parseUnixDate s with
  | some v => (Except.ok (), v)
  | none => (Except.error (), goZeroTimeNs)

/-! ### Stepping lemmas: symbolic execution of `Parse` on a `Format` output -/

theorem lookup_day (wd : Nat) (hwd : wd < 7) (rest : List Char) :
    lookupName shortDayNames (shortDayNames.getD wd [] ++ rest) =
      some (wd, rest) := by
  interval_cases wd <;> rfl

theorem lookup_month (m0 : Nat) (hm : m0 < 12) (rest : List Char) :
    lookupName shortMonthNames (shortMonthNames.getD m0 [] ++ rest) =
      some (m0, rest) := by
  interval_cases m0 <;> rfl

theorem expectCh_cons (c : Char) (rest : List Char) :
    expectCh c (c :: rest) = some rest := by
  simp [expectCh]

theorem getnum_two {c1 c2 : Char} (h1 : isDigitCh c1 = true)
    (h2 : isDigitCh c2 = true) (b : Bool) (rest : List Char) :
    getnum b (c1 :: c2 :: rest) = some (dval c1 * 10 + dval c2, rest) := by
  simp [getnum, h1, h2]

theorem natDigits_single {n : Nat} (h : n < 10) : natDigits n = [digitCh n] := by
  simp [natDigits, natDigitsAux, h]

theorem natDigits_two {n : Nat} (h10 : 10 ≤ n) (h100 : n < 100) :
    natDigits n = [digitCh (n / 10), digitCh (n % 10)] := by
  have h1 : ¬ n < 10 := by omega
  have h2 : n / 10 < 10 := by omega
  cases n with
  | zero => omega
  | succ m => simp [natDigits, natDigitsAux, h1, h2]

theorem pad2_eq {n : Nat} (h : n < 100) :
    natDigitsPad 2 n = [digitCh (n / 10), digitCh (n % 10)] := by
  by_cases h10 : n < 10
  · have hd : natDigits n = [digitCh n] := natDigits_single h10
    have hdiv : n / 10 = 0 := by omega
    have hmod : n % 10 = n := by omega
    rw [natDigitsPad, hd, hdiv, hmod]
    rfl
  · have hd := natDigits_two (by omega) h
    rw [natDigitsPad, hd]
    rfl

theorem getnum_pad2 (b : Bool) (n : Nat) (rest : List Char) (h : n < 100) :
    getnum b (natDigitsPad 2 n ++ rest) = some (n, rest) := by
  rw [pad2_eq h, List.cons_append, List.cons_append, List.nil_append]
  rw [getnum_two (isDigitCh_digitCh (by omega)) (isDigitCh_digitCh (by omega))]
  rw [dval_digitCh (by omega), dval_digitCh (by omega)]
  rw [show n / 10 * 10 + n % 10 = n by omega]

theorem getnum_underDay (d : Nat) (rest : List Char) (h : d < 100) :
    getnum false (underDaySkip (renderDay2 d ++ ' ' :: rest)) =
      some (d, ' ' :: rest) := by
  by_cases h10 : d < 10
  · rw [renderDay2, if_pos h10, natDigits_single h10]
    have hskip : underDaySkip (' ' :: digitCh d :: ' ' :: rest) =
        digitCh d :: ' ' :: rest := by
      simp [underDaySkip]
    simp only [List.cons_append, List.nil_append, hskip]
    simp [getnum, isDigitCh_digitCh h10, dval_digitCh h10,
      show isDigitCh ' ' = false by decide]
  · rw [renderDay2, if_neg h10, natDigits_two (by omega) h]
    have hne : digitCh (d / 10) ≠ ' ' :=
      ne_of_digit (isDigitCh_digitCh (by omega)) (by decide)
    have hskip : underDaySkip (digitCh (d / 10) :: digitCh (d % 10) :: ' ' :: rest) =
        digitCh (d / 10) :: digitCh (d % 10) :: ' ' :: rest := by
      simp [underDaySkip, hne]
    simp only [List.cons_append, List.nil_append, hskip]
    rw [getnum_two (isDigitCh_digitCh (by omega)) (isDigitCh_digitCh (by omega))]
    rw [dval_digitCh (by omega), dval_digitCh (by omega)]
    rw [show d / 10 * 10 + d % 10 = d by omega]

theorem natDigitsPad_len4 {n : Nat} (h : n < 10 ^ 4) :
    (natDigitsPad 4 n).length = 4 := by
  unfold natDigitsPad
  have := natDigits_len (by norm_num) h
  simp [List.length_replicate]
  omega

theorem getnum4_digits {l : List Char} (hlen : l.length = 4)
    (hd : ∀ c ∈ l, isDigitCh c = true) (rest : List Char) :
    getnum4 (l ++ rest) = some (digitsVal l, rest) := by
  match l, hlen with
  | [c1, c2, c3, c4], _ =>
    simp [getnum4, hd c1 (by simp), hd c2 (by simp), hd c3 (by simp),
      hd c4 (by simp)]

theorem getnum4_pad4 (y : Nat) (rest : List Char) (h : y < 10000) :
    getnum4 (natDigitsPad 4 y ++ rest) = some (y, rest) := by
  rw [getnum4_digits (natDigitsPad_len4 (by omega)) (natDigitsPad_digits 4 y) rest]
  rw [natDigitsPad_val]

theorem fracNs_space_fst (rest : List Char) : (fracNs (' ' :: rest)).1 = 0 := by
  cases rest <;> rfl

theorem fracNs_space_snd (rest : List Char) :
    (fracNs (' ' :: rest)).2 = ' ' :: rest := by
  cases rest <;> rfl

theorem parseZone_utc (rest : List Char) :
    parseZone ("UTC".toList ++ rest) = some rest := rfl

theorem daysIn_le_31 {m y : Nat} (h1 : 1 ≤ m) (h2 : m ≤ 12) :
    daysIn m y ≤ 31 := by
  interval_cases m <;> unfold daysIn <;> (try split) <;> decide

/-- Symbolic execution of `Parse` over every string `Format` emits with
zone `UTC`: the weekday name (never validated), the clock fields within
their ranges, and the four-digit year reproduce exactly the instant of the
fields. -/
theorem parse_render_utc (wd year month day hour minute sec : Nat)
    (hwd : wd < 7) (hy : year ≤ 9999) (hm1 : 1 ≤ month) (hm2 : month ≤ 12)
    (hd1 : 1 ≤ day) (hd2 : day ≤ daysIn month year)
    (hh : hour < 24) (hmi : minute < 60) (hs : sec < 60) :
    parseUnixDate (renderUnixDate wd year month day hour minute sec "UTC".toList) =
      some (epochOfDateTime year month day hour minute sec * 1000000000) := by
  have hday100 : day < 100 := by
    have := daysIn_le_31 hm1 hm2 (y := year)
    omega
  have gU := fun rest => getnum_underDay day rest hday100
  have gH := fun rest => getnum_pad2 false hour rest (by omega)
  have gM := fun rest => getnum_pad2 true minute rest (by omega)
  have gS := fun rest => getnum_pad2 true sec rest (by omega)
  have gY : getnum4 (natDigitsPad 4 year) = some (year, []) := by
    simpa using getnum4_pad4 year [] (by omega)
  have hm' : month - 1 + 1 = month := by omega
  have hh' : ¬ 24 ≤ hour := by omega
  have hmi' : ¬ 60 ≤ minute := by omega
  have hs' : ¬ 60 ≤ sec := by omega
  have hrange : ¬ (day < 1 ∨ daysIn month year < day) := by
    push_neg
    omega
  simp only [parseUnixDate, renderUnixDate, List.append_assoc, List.cons_append,
    lookup_day wd hwd, expectCh_cons, lookup_month (month - 1) (by omega), gU, gH,
    gM, gS, gY, fracNs_space_fst, fracNs_space_snd, parseZone_utc, hm']
  rw [if_neg hh', if_neg hmi', if_neg hs']
  rw [if_neg (show ¬ (([] : List Char) ≠ []) by simp)]
  rw [if_neg hrange]
  simp

/-! ## Claim C8 (corrected): Unix-date parsing -/

/-- C8 counterexample: on `"Sat Feb  4 10:08:05 CET 2017"` — a valid
string of the fixed Unix-date format — `Set` does not produce the instant
the string denotes.  The string denotes 09:08:05 UTC (CET is UTC+01:00),
but under a UTC local zone Go's `Parse` cannot resolve the abbreviation
and reads the clock fields as UTC, one hour late. -/
theorem unixtime_cet_counterexample :
    parseUnixDate "Sat Feb  4 10:08:05 CET 2017".toList =
      some 1486202885000000000 ∧
    specDenotedCET 2017 2 4 10 8 5 = 1486199285000000000 ∧
    (1486202885000000000 : Int) ≠ 1486199285000000000 :=
  ⟨by decide, by decide, by decide⟩

/-- C8 (amended): every string `Format` emits with zone `UTC` — any
weekday name, in-range clock fields, four-digit year — parses back to
exactly the instant of its fields, and the eight malformed variants of the
test suite (missing fields, wrong field widths, missing trailing
timezone/year token) are all rejected. -/
theorem unixtime_roundtrip_and_rejects :
    (∀ wd year month day hour minute sec : Nat,
        wd < 7 → year ≤ 9999 → 1 ≤ month → month ≤ 12 →
        1 ≤ day → day ≤ daysIn month year → hour < 24 → minute < 60 → sec < 60 →
        parseUnixDate
            (renderUnixDate wd year month day hour minute sec "UTC".toList) =
          some (epochOfDateTime year month day hour minute sec * 1000000000)) ∧
    parseUnixDate [] = none ∧
    parseUnixDate "Mon Feb 4 10:08:5 CET 2017".toList = none ∧
    parseUnixDate "Mon Feb 4 10:8:05 CET 2017".toList = none ∧
    parseUnixDate "Mon Feb 04 10:8:05 CET 2017".toList = none ∧
    parseUnixDate "Feb 4 10:08:05 CET 2017".toList = none ∧
    parseUnixDate "Mon Feb 4 10:08:05 2017".toList = none ∧
    parseUnixDate "4 10:08:05 CET 2017".toList = none ∧
    parseUnixDate "Mon Feb 4 10:08:05 CET".toList = none :=
  ⟨fun wd y m d h mi s h1 h2 h3 h4 h5 h6 h7 h8 h9 =>
      parse_render_utc wd y m d h mi s h1 h2 h3 h4 h5 h6 h7 h8 h9,
    by decide, by decide, by decide, by decide, by decide, by decide,
    by decide, by decide⟩

/-- Witness for C8 at Sat Feb 4 2017, 10:08:05 UTC. -/
theorem unixtime_roundtrip_witness :
    parseUnixDate (renderUnixDate 6 2017 2 4 10 8 5 "UTC".toList) =
      some 1486202885000000000 :=
  (unixtime_roundtrip_and_rejects.1 6 2017 2 4 10 8 5 (by decide) (by decide)
    (by decide) (by decide) (by decide) (by decide) (by decide) (by decide)
    (by decide)).trans (by decide)

/-! ## Claim C9 (corrected): what `Set` stores on a parse failure -/

/-- C9 counterexample: `durationValue.Set` on the failing input `"d"`
returns before assigning — the day regexp matches `"d"`, `ParseFloat` on
the empty captured number fails, and the `return err` precedes the
assignment — so the previously stored value 5 survives instead of being
overwritten with the zero value. -/
theorem set_overwrite_counterexample :
    durationValueSetPair 5 ['d'] = (Except.error (), 5) ∧ (5 : Int) ≠ 0 :=
  ⟨by decide, by decide⟩

/-- C9 (amended): `unixTime.Set` always assigns before returning the
error, so every failing input overwrites the stored value with the zero
time; `durationValue.Set` has two failure paths — when `ParseDuration`
fails the zero duration has already been assigned, but when the
day-component `ParseFloat` fails it returns before assigning and the
previous value is kept (e.g. on the input `"d"`). -/
theorem set_assigns_before_error_check :
    (∀ (p : Int) (s : List Char), parseUnixDate s = none →
        unixTimeSetPair p s = (Except.error (), goZeroTimeNs)) ∧
    (∀ (p : Int) (s : List Char), (durationValueSetPair p s).1 = Except.error () →
        (durationValueSetPair p s).2 = 0 ∨ (durationValueSetPair p s).2 = p) ∧
    (∀ p : Int, durationValueSetPair p ['d'] = (Except.error (), p)) := by
  refine ⟨?_, ?_, ?_⟩
  · intro p s h
    simp [unixTimeSetPair, h]
  · intro p s h
    unfold durationValueSetPair at h ⊢
    cases hf : findDay s with
    | none =>
      simp only [hf] at h ⊢
      cases hg : parseGoDuration s with
      | ok v => simp [hg] at h
      | error e => simp [hg]
    | some ij =>
      simp only [hf] at h ⊢
      cases hq : parseFloatQ ((s.take (ij.2 - 1)).drop ij.1) with
      | none => simp [hq]
      | some q =>
        simp only [hq] at h ⊢
        simp only [List.append_assoc] at h ⊢
        cases hg : parseGoDuration
            (s.take ij.1 ++ (s.drop ij.2 ++ (formatFloat6 (q * 24) ++ ['h']))) with
        | ok v => simp [hg] at h
        | error e => simp [hg]
  · intro p
    have h1 : findDay ['d'] = some (0, 1) := by decide
    have h2 : parseFloatQ ([] : List Char) = none := by decide
    simp [durationValueSetPair, h1, h2]

/-- Witness for C9: a failing Unix-date input stores the zero time
regardless of the previous value; the failing duration input keeps 7. -/
theorem set_assigns_witness :
    unixTimeSetPair 3 ['x'] = (Except.error (), goZeroTimeNs) ∧
    durationValueSetPair 7 ['d'] = (Except.error (), 7) :=
  ⟨set_assigns_before_error_check.1 3 ['x'] (by decide),
    set_assigns_before_error_check.2.2 7⟩
